import Mathlib

/-!
Verification of the strawboat columnar codec against its specification.

The definitions below are a shallow embedding of the Rust sources:
byte buffers become `List Nat` (one entry per byte, each < 256), machine
integers become `Nat`/`Int` with explicit width bookkeeping, fallible
functions return `Option` (where `none` models both an `Err(..)` return and
a Rust panic), and `f64` codec-gain estimates become `ℚ` (every value the
sources compare at the places proved here is exactly representable).
Each definition's doc comment names the Rust item it embeds.
-/

namespace Strawboat

/-! ## Byte-level primitives -/

/-- Little-endian 4-byte image of `n`, as written by `(x as u32).to_le_bytes()`. -/
def u32le (n : Nat) : List Nat :=
  [n % 256, n / 256 % 256, n / 65536 % 256, n / 16777216 % 256]

/-- Little-endian `w`-byte image of a value, as written by `T::to_le_bytes`
for a `w`-byte native type (values are carried as their bit patterns). -/
def leBytes : Nat → Nat → List Nat
  | 0, _ => []
  | w + 1, n => n % 256 :: leBytes w (n / 256)

/-- Value of a little-endian byte list, as read by `T::from_le_bytes`. -/
def leValue : List Nat → Nat
  | [] => 0
  | b :: rest => b + 256 * leValue rest

/-- Reading an `u32` little-endian from a byte stream
(`byteorder::ReadBytesExt::read_u32::<LittleEndian>`); `none` is the
`Err` on a stream shorter than four bytes. -/
def readU32le : List Nat → Option (Nat × List Nat)
  | b0 :: b1 :: b2 :: b3 :: rest => some (b0 + 256 * b1 + 65536 * b2 + 16777216 * b3, rest)
  | _ => none

/-- Reading one byte from a byte stream (`read_u8` / `read_exact` on one byte). -/
def readU8 : List Nat → Option (Nat × List Nat)
  | b :: rest => some (b, rest)
  | _ => none

/-- Reading `w` bytes as one little-endian value
(`read_exact(&mut bs)` followed by `T::from_le_bytes`). -/
def readLeBytes (w : Nat) (input : List Nat) : Option (Nat × List Nat) :=
  if w ≤ input.length then some (leValue (input.take w), input.drop w) else none

/-! ## Compression codec enumerations

The repository carries two `Compression` enums: the four-variant one of
`src/compression.rs` and the six-variant one of `src/compression/mod.rs`.
The files `src/compression/boolean/mod.rs`, `src/compression/integer/bp.rs`
and `src/compression/integer/delta.rs` additionally refer to variants
(`OneValue`, `Bitpacking`, `Delta`, ...) of a wider enum that is not among
the source files; that wider enum is modelled from the spec below. -/

/-- Compression enum of `src/compression/mod.rs` (lines 22-31):
`{None, LZ4, ZSTD, SNAPPY, RLE, Dict}`. -/
inductive Compression
  | None
  | LZ4
  | ZSTD
  | SNAPPY
  | RLE
  | Dict
deriving DecidableEq, Repr

/-- Compression enum of `src/compression.rs` (lines 5-12):
`{None, LZ4, ZSTD, SNAPPY}`. -/
inductive CompressionRs
  | None
  | LZ4
  | ZSTD
  | SNAPPY
deriving DecidableEq, Repr

/-- Modelled from the spec: the full closed codec-tag enumeration of §3
(`{None=0, LZ4=1, Zstd=2, Snappy=3, RLE=10, Dict=11, OneValue=12, Freq=13,
BitPack=14, Delta=15, DeltaBitPack=16, Patas=17}`). The Rust enum with
these variants, referred to by `src/compression/boolean/mod.rs`,
`src/compression/integer/bp.rs` and `src/compression/integer/delta.rs`,
is not among the source files. -/
inductive CompressionFull
  | None
  | LZ4
  | ZSTD
  | SNAPPY
  | RLE
  | Dict
  | OneValue
  | Freq
  | Bitpacking
  | Delta
  | DeltaBitpacking
  | Patas
deriving DecidableEq, Repr

/-- Codec tag enum of `src/compression/basic.rs` (lines 23-28):
the general byte-level codecs. -/
inductive CommonCompression
  | None
  | LZ4
  | ZSTD
  | SNAPPY
deriving DecidableEq, Repr

/-- Embeds `Compression::from_codec` of `src/compression/mod.rs` (lines 44-56).
`none` models the `Err(OutOfSpec("Unknown compression codec .."))` return. -/
def Compression.from_codec (t : Nat) : Option Compression :=
  match t with
  | 0 => some Compression.None
  | 1 => some Compression.LZ4
  | 2 => some Compression.ZSTD
  | 3 => some Compression.SNAPPY
  | 10 => some Compression.RLE
  | 11 => some Compression.Dict
  | _ => none

/-- Embeds `Compression::from_codec` of `src/compression.rs` (lines 25-35). -/
def CompressionRs.from_codec (t : Nat) : Option CompressionRs :=
  match t with
  | 0 => some CompressionRs.None
  | 1 => some CompressionRs.LZ4
  | 2 => some CompressionRs.ZSTD
  | 3 => some CompressionRs.SNAPPY
  | _ => none

/-- Embeds `impl From<Compression> for u8` of `src/compression/mod.rs`
(lines 77-88). -/
def Compression.toU8 : Compression → Nat
  | Compression.None => 0
  | Compression.LZ4 => 1
  | Compression.ZSTD => 2
  | Compression.SNAPPY => 3
  | Compression.RLE => 10
  | Compression.Dict => 11

/-- Embeds `impl From<Compression> for u8` of `src/compression.rs`
(lines 62-71). -/
def CompressionRs.toU8 : CompressionRs → Nat
  | CompressionRs.None => 0
  | CompressionRs.LZ4 => 1
  | CompressionRs.ZSTD => 2
  | CompressionRs.SNAPPY => 3

/-- Modelled from the spec: §3 codec-tag values for the full enumeration
(the `From<Compression> for u8` impl of the wider enum is not among the
source files). -/
def CompressionFull.toU8 : CompressionFull → Nat
  | CompressionFull.None => 0
  | CompressionFull.LZ4 => 1
  | CompressionFull.ZSTD => 2
  | CompressionFull.SNAPPY => 3
  | CompressionFull.RLE => 10
  | CompressionFull.Dict => 11
  | CompressionFull.OneValue => 12
  | CompressionFull.Freq => 13
  | CompressionFull.Bitpacking => 14
  | CompressionFull.Delta => 15
  | CompressionFull.DeltaBitpacking => 16
  | CompressionFull.Patas => 17

/-- Embeds `Compression::raw_mode` of `src/compression/mod.rs` (lines 58-63). -/
def Compression.raw_mode : Compression → Bool
  | Compression.None => true
  | Compression.LZ4 => true
  | Compression.ZSTD => true
  | Compression.SNAPPY => true
  | _ => false

/-- Embeds `CommonCompression::to_compression` of `src/compression/basic.rs`
(lines 53-60). -/
def CommonCompression.to_compression : CommonCompression → Compression
  | CommonCompression.None => Compression.None
  | CommonCompression.LZ4 => Compression.LZ4
  | CommonCompression.ZSTD => Compression.ZSTD
  | CommonCompression.SNAPPY => Compression.SNAPPY

/-! ## Column metadata (`src/lib.rs`) -/

/-- Embeds `PageMeta` of `src/lib.rs` (lines 60-65): `length` is the page's
compressed byte length, `num_values` its row count (both `u64`). -/
structure PageMeta where
  length : Nat
  num_values : Nat
deriving DecidableEq, Repr

/-- Embeds `ColumnMeta` of `src/lib.rs` (lines 25-28). -/
structure ColumnMeta where
  offset : Nat
  pages : List PageMeta
deriving DecidableEq, Repr

/-- Embeds `ColumnMeta::slice` of `src/lib.rs` (lines 32-46); the two
`assert!`s of the source become hypotheses of the theorems below. -/
def ColumnMeta.slice (m : ColumnMeta) (start_page_index end_page_index : Nat) : ColumnMeta :=
  { offset := ((m.pages.take start_page_index).map PageMeta.length).sum + m.offset
    pages := (m.pages.drop start_page_index).take (end_page_index - start_page_index) }

/-- Embeds `ColumnMeta::skip_one_page` of `src/lib.rs` (lines 48-50). -/
def ColumnMeta.skip_one_page (m : ColumnMeta) : ColumnMeta :=
  m.slice 1 m.pages.length

/-- Embeds `ColumnMeta::total_len` of `src/lib.rs` (lines 52-54). -/
def ColumnMeta.total_len (m : ColumnMeta) : Nat :=
  (m.pages.map PageMeta.length).sum

/-! ## Integer RLE codec (`src/compression/integer/rle.rs`)

Values of the `w`-byte native type `T` are carried as their little-endian
bit patterns, i.e. naturals below `256 ^ w`; `T::default()` is the zero
pattern and `PartialEq` on `T` is equality of patterns. -/

/-- Pairs each value with its validity bit, the way the encoder loop reads
`is_valid(&validity, i)` (`src/compression/mod.rs` lines 193-199) while
enumerating `values`: a missing bitmap means every position is valid. -/
def zipValidity {α : Type} (values : List α) (validity : Option (List Bool)) :
    List (α × Bool) :=
  match validity with
  | none => values.map (fun v => (v, true))
  | some bits => values.zip bits

/-- Loop of `RLE::compress_native` (`src/compression/integer/rle.rs`
lines 76-108) with the flushed `(seen_count, value)` pairs made explicit;
`seen_count : u32`, `last_value` and `all_null` are the loop's mutable
state, and the trailing entry is the final `if seen_count != 0` flush. -/
def rleRunsLoop : List (Nat × Bool) → Nat → Nat → Bool → List (Nat × Nat)
  | [], seen_count, last_value, _ =>
    if seen_count ≠ 0 then [(seen_count, last_value)] else []
  | (item, valid) :: rest, seen_count, last_value, all_null =>
    if valid then
      if all_null then
        rleRunsLoop rest (seen_count + 1) item false
      else if last_value ≠ item then
        (seen_count, last_value) :: rleRunsLoop rest 1 item false
      else
        rleRunsLoop rest (seen_count + 1) last_value false
    else
      rleRunsLoop rest (seen_count + 1) last_value all_null

/-- The `(run length, value)` pairs `RLE::compress_native` flushes for a
column, starting from the source's initial state
`seen_count = 0, last_value = T::default(), all_null = true`. -/
def rleRuns (values : List Nat) (validity : Option (List Bool)) : List (Nat × Nat) :=
  rleRunsLoop (zipValidity values validity) 0 0 true

/-- Byte image of the flushed runs: each flush writes
`seen_count.to_le_bytes()` (4 bytes) then `last_value.to_le_bytes()`
(`w` bytes). -/
def runsToBytes (w : Nat) (runs : List (Nat × Nat)) : List Nat :=
  (runs.map (fun r => u32le r.1 ++ leBytes w r.2)).flatten

/-- Embeds `RLE::compress_native` of `src/compression/integer/rle.rs`
(lines 71-111): the byte stream appended to the output writer. -/
def RLE.compress_native (w : Nat) (values : List Nat) (validity : Option (List Bool)) :
    List Nat :=
  runsToBytes w (rleRuns values validity)

/-- The `loop { .. }` of `RLE::decompress_native`
(`src/compression/integer/rle.rs` lines 121-138), unfolded one iteration
per unit of fuel. Every iteration consumes `4 + w` input bytes, so fuel
`input.length + 1` (as passed by `RLE.decompress_native`) is never
exhausted; `none` models the `Err` of `read_u32`/`read_exact` on a
truncated stream. -/
def rleDecompressLoop (w : Nat) :
    Nat → List Nat → Nat → Nat → List Nat → Option (List Nat × List Nat)
  | 0, _, _, _, _ => none
  | fuel + 1, input, length, num_values, array =>
    match readU32le input with
    | none => none
    | some (len, rest) =>
      match readLeBytes w rest with
      | none => none
      | some (t, rest2) =>
        if num_values + len ≥ length then some (array ++ List.replicate len t, rest2)
        else rleDecompressLoop w fuel rest2 length (num_values + len) (array ++ List.replicate len t)

/-- Embeds `RLE::decompress_native` of `src/compression/integer/rle.rs`
(lines 113-140): decodes `(run length, value)` records until at least
`length` values were pushed, returning the pushed values and the
remaining input slice. -/
def RLE.decompress_native (w : Nat) (input : List Nat) (length : Nat) :
    Option (List Nat × List Nat) :=
  rleDecompressLoop w (input.length + 1) input length 0 []

/-! ### Specification-side description of the decoded column -/

/-- Forward fill: every position gets the carried value, and each valid
element replaces the carry. A null position thus repeats the nearest
valid value before it (or the seed `c` when there is none). -/
def fillForward : Nat → List (Nat × Bool) → List Nat
  | _, [] => []
  | _, (v, true) :: rest => v :: fillForward v rest
  | c, (_, false) :: rest => c :: fillForward c rest

/-- First valid value of a column, if any. -/
def firstValidValue : List (Nat × Bool) → Option Nat
  | [] => none
  | (v, true) :: _ => some v
  | (_, false) :: rest => firstValidValue rest

/-- The column the integer RLE round trip reproduces: nulls are absorbed
into the enclosing run, so a null carries the nearest preceding valid
value, leading nulls carry the first valid value, and an all-null column
carries `T::default()` (the zero pattern). -/
def rleFill (pairs : List (Nat × Bool)) : List Nat :=
  fillForward ((firstValidValue pairs).getD 0) pairs

/-- Concatenation of the runs, value repeated run-length many times - what
the decoder's inner `for _ in 0..len { array.push(t) }` loop produces. -/
def expandRuns (runs : List (Nat × Nat)) : List Nat :=
  (runs.map (fun r => List.replicate r.1 r.2)).flatten

/-- Sum of the run lengths of the flushed runs. -/
def runsTotal (runs : List (Nat × Nat)) : Nat :=
  (runs.map Prod.fst).sum

/-! ## Boolean RLE decoder (`src/compression/boolean/rle.rs`) -/

/-- The `while !input.is_empty()` loop of `RLE::decompress` for bitmaps
(`src/compression/boolean/rle.rs` lines 47-61), unfolded one iteration per
unit of fuel; every iteration consumes five input bytes, so the fuel
`input.length + 1` passed below is never exhausted. Each record is a
4-byte run length followed by one byte, pushed as `read_u8()? != 0`;
the loop also exits successfully as soon as the input is empty. -/
def rleBitmapDecompressLoop :
    Nat → List Nat → Nat → Nat → List Bool → Option (List Bool)
  | 0, _, _, _, _ => none
  | fuel + 1, input, length, num_values, array =>
    if input = [] then some array
    else
      match readU32le input with
      | none => none
      | some (len, rest) =>
        match readU8 rest with
        | none => none
        | some (b, rest2) =>
          if num_values + len ≥ length then some (array ++ List.replicate len (b != 0))
          else rleBitmapDecompressLoop fuel rest2 length (num_values + len)
            (array ++ List.replicate len (b != 0))

/-- Embeds `RLE::decompress` of `src/compression/boolean/rle.rs`
(lines 47-61): the bits appended to the caller's `MutableBitmap`. -/
def RLE.decompress_bitmap (input : List Nat) (length : Nat) : Option (List Bool) :=
  rleBitmapDecompressLoop (input.length + 1) input length 0 []

/-! ## Bitpacking decoder (`src/compression/integer/bp.rs`)

The helpers `align`, `block_need_bytes` and `unpack32`/`unpack64` come
from `crate::util::bit_pack`, a module that is not among the source files;
they are modelled from §4.1 of the spec (fixed blocks of 128 values, a
block of width `w` occupying `128*w/8` bytes, values packed starting at
the low bit of byte 0, least-significant bit first). -/

/-- Modelled from the spec: `align(n, m)` rounds `n` up to the next multiple
of `m` (§4.1). -/
def align (n m : Nat) : Nat :=
  (n + m - 1) / m * m

/-- Modelled from the spec: bytes occupied by one 128-value block at bit
width `w` (`block_need_bytes`), `128 * w / 8 = 16 * w`. -/
def block_need_bytes (w : Nat) : Nat :=
  16 * w

/-- Modelled from the spec: bit number `k` of a packed little-endian byte
buffer (bit `k % 8` of byte `k / 8`). -/
def bitOf (bytes : List Nat) (k : Nat) : Nat :=
  bytes.getD (k / 8) 0 / 2 ^ (k % 8) % 2

/-- Modelled from the spec: unpacking one 128-value block at bit width `w`
(`unpack32`/`unpack64`): value `i` is assembled from bits
`i*w ..< (i+1)*w`, least-significant first. -/
def unpackBlock (bytes : List Nat) (w : Nat) : List Nat :=
  (List.range 128).map (fun i =>
    ((List.range w).map (fun j => bitOf bytes (i * w + j) * 2 ^ j)).sum)

/-- Chunks of size `k` of a byte list, as produced by `slice::chunks(k)`:
all full chunks plus a shorter trailing chunk. -/
def listChunks (l : List Nat) (k : Nat) : List (List Nat) :=
  (List.range ((l.length + k - 1) / k)).map (fun i => (l.drop (i * k)).take k)

/-- Embeds `Bitpacking::decompress` of `src/compression/integer/bp.rs`
(lines 87-111): read the width byte, resize the output to
`align(length, 128)` default values, unpack one 128-value block per
available input chunk (the `zip` leaves missing blocks at the default),
then truncate to `length`. `none` models the `input[0]` panic on empty
input and the `chunks(0)` panic at width 0. -/
def Bitpacking.decompress (input : List Nat) (length : Nat) : Option (List Nat) :=
  match input with
  | [] => none
  | width :: data =>
    if width = 0 then none
    else
      some ((((List.range (align length 128 / 128)).map (fun b =>
        match (listChunks data (block_need_bytes width)).get? b with
        | none => List.replicate 128 0
        | some chunk => unpackBlock chunk width)).flatten).take length)

/-! ## Integer statistics probe (`src/compression/integer/mod.rs`)

The probed values are carried as `Int` (the signed value of the native
integer type; `T::default()` is 0 and `PartialOrd`/`PartialEq` are the
integer order and equality). -/

/-- Embeds `IntegerStats` of `src/compression/integer/mod.rs`
(lines 170-181); `distinct_values` (a `HashMap<T, usize>`) becomes an
association list, and `average_run_length : f64` becomes the exact
rational `tuple_count / run_count` the source computes. -/
structure IntegerStats where
  tuple_count : Nat
  total_size : Nat
  null_count : Nat
  average_run_length : ℚ
  is_sorted : Bool
  min : Int
  max : Int
  distinct_values : List (Int × Nat)
  unique_count : Nat
  set_count : Nat
deriving DecidableEq, Repr

/-- The `*stats.distinct_values.entry(current_value).or_insert(0) += 1`
update on the association-list model of the hash map. -/
def bumpCount (m : List (Int × Nat)) (v : Int) : List (Int × Nat) :=
  match m with
  | [] => [(v, 1)]
  | (k, c) :: rest => if k = v then (k, c + 1) :: rest else (k, c) :: bumpCount rest v

/-- The mutable state of the `gen_stats` loop
(`src/compression/integer/mod.rs` lines 197-221). -/
structure GenStatsState where
  is_sorted : Bool
  last_value : Int
  run_count : Nat
  min : Int
  max : Int
  distinct : List (Int × Nat)
deriving DecidableEq, Repr

/-- One iteration of the `gen_stats` loop, on the pair
`(current_value, is_valid(&validity, i))`: valid positions update
sortedness and the run counter; every position updates the distinct map
and the `if current_value > max { .. } else if current_value < min { .. }`
extremes. -/
def genStatsStep (st : GenStatsState) (p : Int × Bool) : GenStatsState :=
  let st1 :=
    if p.2 then
      { st with
        is_sorted := if p.1 < st.last_value then false else st.is_sorted
        run_count := if st.last_value ≠ p.1 then st.run_count + 1 else st.run_count
        last_value := if st.last_value ≠ p.1 then p.1 else st.last_value }
    else st
  let st2 := { st1 with distinct := bumpCount st1.distinct p.1 }
  if p.1 > st2.max then { st2 with max := p.1 }
  else if p.1 < st2.min then { st2 with min := p.1 }
  else st2

/-- Count of zero bits in the validity mask (`array.null_count()`). -/
def nullCount (validity : Option (List Bool)) : Nat :=
  match validity with
  | none => 0
  | some bits => (bits.filter (fun b => !b)).length

/-- Embeds `gen_stats` of `src/compression/integer/mod.rs` (lines 183-226)
for a `w`-byte integer type: a single pass over all stored values (valid
or not) from the initial state
`is_sorted = true, last_value = T::default(), run_count = 0,
min = max = T::default()`. -/
def genStatsRun (values : List Int) (validity : Option (List Bool)) : GenStatsState :=
  (zipValidity values validity).foldl genStatsStep
    { is_sorted := true, last_value := 0, run_count := 0, min := 0, max := 0, distinct := [] }

/-- The `IntegerStats` record `gen_stats` returns, assembled from the loop
state: `average_run_length = array.len() as f64 / run_count as f64`
becomes the exact rational quotient. -/
def gen_stats (w : Nat) (values : List Int) (validity : Option (List Bool)) : IntegerStats :=
  let st := genStatsRun values validity
  { tuple_count := values.length
    total_size := values.length * w
    null_count := nullCount validity
    average_run_length := (values.length : ℚ) / (st.run_count : ℚ)
    is_sorted := st.is_sorted
    min := st.min
    max := st.max
    distinct_values := st.distinct
    unique_count := st.distinct.length
    set_count := values.length - nullCount validity }

/-- Stated from the claim's words, for comparison with `gen_stats`: the
minimum over exactly the valid values of the column (`none` when every
position is null). -/
def minOverValid (values : List Int) (validity : Option (List Bool)) : Option Int :=
  match ((zipValidity values validity).filter (fun p => p.2)).map Prod.fst with
  | [] => none
  | v :: rest => some (rest.foldl (fun a b => min a b) v)

/-! ## Codec selection (`choose_compressor`)

`src/compression/integer/mod.rs` lines 228-256 and
`src/compression/boolean/mod.rs` lines 192-223 run the same selection
loop over their candidate encoder lists; the loop below embeds it once,
generic over the codec enumeration, taking each candidate as the pair of
its `to_compression()` tag and its `compress_ratio(stats)` value. -/

/-- Modelled from the spec (§6 write-options table) together with the uses
in `src/compression/integer/mod.rs`: the `WriteOptions` with
`default_compression : CommonCompression`, an optional minimum estimate
(`default_compress_ratio`, here `min_gain`) and `forbidden_compressions`
is not among the source files (`src/write/common.rs` holds an older
variant without these fields). -/
structure WriteOptionsM (α : Type) where
  default_compression : CommonCompression
  min_gain : Option Nat
  forbidden_compressions : List α
deriving DecidableEq, Repr

/-- The selection result: `IntCompressor`/`BitmapEncoder` - the default
general codec or one typed encoder (identified by its codec tag). -/
inductive LeafCompressor (α : Type) where
  | Basic (c : CommonCompression)
  | Extend (c : α)
deriving DecidableEq, Repr

/-- Embeds the `for encoder in compressors { .. }` loop of
`choose_compressor`: skip forbidden codecs, and replace the running best
whenever `compress_ratio` strictly exceeds the running `max_ratio`. -/
def choose_compressor_loop {α : Type} [DecidableEq α] (forbidden : List α) :
    ℚ → LeafCompressor α → List (α × ℚ) → LeafCompressor α
  | _, result, [] => result
  | max_gain, result, (c, r) :: rest =>
    if c ∈ forbidden then choose_compressor_loop forbidden max_gain result rest
    else if r > max_gain then choose_compressor_loop forbidden r (LeafCompressor.Extend c) rest
    else choose_compressor_loop forbidden max_gain result rest

/-- Embeds `choose_compressor` (`src/compression/integer/mod.rs` lines
228-256, `src/compression/boolean/mod.rs` lines 192-223): with no
`default_compress_ratio` the default general codec is returned outright;
otherwise the loop starts from `max_ratio = ratio as f64` and
`result = basic`. -/
def choose_compressor {α : Type} [DecidableEq α] (cands : List (α × ℚ))
    (opts : WriteOptionsM α) : LeafCompressor α :=
  match opts.min_gain with
  | some m =>
    choose_compressor_loop opts.forbidden_compressions (m : ℚ)
      (LeafCompressor.Basic opts.default_compression) cands
  | none => LeafCompressor.Basic opts.default_compression

/-- Embeds the integer instantiation: candidates
`vec![Box::new(RLE {}), Box::new(Dict {})]` in that order; RLE's
`compress_ratio` is `stats.average_run_length`
(`src/compression/integer/rle.rs` lines 58-67; the debug-build
environment-variable override is compiled out), and the Dict estimate is a
parameter (`Dict::compress_ratio` of `src/compression/integer/dict.rs`
reads stats fields this snapshot's `IntegerStats` does not carry, so only
its value matters to the selection logic). -/
def choose_compressor_integer (stats : IntegerStats) (dict_gain : ℚ)
    (opts : WriteOptionsM Compression) : LeafCompressor Compression :=
  choose_compressor
    [(Compression.RLE, stats.average_run_length), (Compression.Dict, dict_gain)] opts

/-- Embeds the boolean instantiation: candidates
`vec![Box::new(OneValue {}), Box::new(RLE {})]` in that order, their
estimates taken as parameters (`OneValue` is not among the source files). -/
def choose_compressor_boolean (one_value_gain rle_gain : ℚ)
    (opts : WriteOptionsM CompressionFull) : LeafCompressor CompressionFull :=
  choose_compressor
    [(CompressionFull.OneValue, one_value_gain), (CompressionFull.RLE, rle_gain)] opts

/-- Stated from the claim's words, for comparison with `choose_compressor`:
among the non-forbidden candidates whose ratio is greater than or equal to
`min_ratio`, pick the one with the highest ratio (first wins ties); fall
back to the default general codec when there is none. -/
def claimSelect {α : Type} [DecidableEq α] (cands : List (α × ℚ))
    (opts : WriteOptionsM α) : LeafCompressor α :=
  match opts.min_gain with
  | none => LeafCompressor.Basic opts.default_compression
  | some m =>
    match (cands.filter (fun cr => cr.1 ∉ opts.forbidden_compressions)).filter
        (fun cr => cr.2 ≥ (m : ℚ)) with
    | [] => LeafCompressor.Basic opts.default_compression
    | e :: es =>
      LeafCompressor.Extend
        (es.foldl (fun best cr => if cr.2 > best.2 then cr else best) e).1

/-! ## Delta codec estimate (`src/compression/integer/delta.rs`) -/

/-- Exact rational value of `f64::MAX`, `(2 - 2 ^ (-52)) * 2 ^ 1023`. -/
def f64Max : ℚ := 2 ^ 1024 - 2 ^ 971

/-- Embeds `Delta::compress_ratio` of `src/compression/integer/delta.rs`
(lines 80-87): `f64::MAX` when `std::mem::size_of::<T>() != 32` (`w` is
the byte width of `T`, so 32 means the 256-bit integer) and the stats are
sorted with more than one tuple; `0.0` otherwise. -/
def Delta.gain (w : Nat) (stats : IntegerStats) : ℚ :=
  if w ≠ 32 ∧ stats.is_sorted = true ∧ stats.tuple_count > 1 then f64Max else 0

/-! ## Page value-payload writers

Three leaf writers emit the `codec tag / compressed_size / uncompressed_size`
header: `write_buffer` of `src/write/serialize.rs` (sequential writes),
`compress_native` of `src/compression/integer/mod.rs` and `encode_bitmap`
of `src/compression/boolean/mod.rs` (eight placeholder bytes patched after
compressing). The external byte codecs (lz4/zstd/snap crates) are outside
the repository; their outputs are taken as a function parameter. -/

/-- Little-endian two's-complement `w`-byte bit pattern of a signed value
(what `to_le_bytes`/`bytemuck::cast_slice` serialize). -/
def toPattern (w : Nat) (v : Int) : Nat :=
  (v % ((2 : Int) ^ (8 * w))).toNat

/-- Byte image of a `w`-byte integer value buffer (`bytemuck::cast_slice`). -/
def valuesBytes (w : Nat) (values : List Int) : List Nat :=
  (values.map (fun v => leBytes w (toPattern w v))).flatten

/-- Byte image of a bitmap (`Bitmap::as_slice` with slice offset 0): bit `i`
of the column is bit `i % 8` of byte `i / 8`, trailing padding bits zero. -/
def boolsToBytes (bits : List Bool) : List Nat :=
  (List.range ((bits.length + 7) / 8)).map (fun i =>
    ((List.range 8).map (fun j => if bits.getD (8 * i + j) false then 2 ^ j else 0)).sum)

/-- Outputs of the external byte-codec libraries behind
`CommonCompression::compress` (`src/compression/basic.rs` lines 108-158):
what `compress_lz4`/`compress_zstd`/`compress_snappy` append to the
output buffer. -/
def ExtCompress : Type :=
  CommonCompression → List Nat → List Nat

/-- Embeds `CommonCompression::compress` of `src/compression/basic.rs`
(lines 74-84): `None` appends the input unchanged and returns its length;
the other codecs append the library output and return its length. -/
def CommonCompression.compress (ext : ExtCompress) :
    CommonCompression → List Nat → Nat × List Nat
  | CommonCompression.None, input => (input.length, input)
  | c, input => ((ext c input).length, ext c input)

/-- Embeds a `buf[pos..pos + patch.len()].copy_from_slice(patch)` patch. -/
def patchBytes (buf : List Nat) (pos : Nat) (patch : List Nat) : List Nat :=
  buf.take pos ++ patch ++ buf.drop (pos + patch.length)

/-- The shared emission pattern of `compress_native` and `encode_bitmap`:
append the codec byte and `[0u8; 8]`, append the payload, then patch
`buf[pos..pos+4]` with the compressed size and `buf[pos+4..pos+8]` with
the uncompressed size (`pos` being the length right after the codec
byte). -/
def write_sized (buf : List Nat) (codec : Nat) (payload : List Nat)
    (compressed_size uncompressed_size : Nat) : List Nat :=
  let buf1 := buf ++ ([codec] ++ (List.replicate 8 0 ++ payload))
  patchBytes (patchBytes buf1 (buf.length + 1) (u32le compressed_size))
    (buf.length + 5) (u32le uncompressed_size)

/-- Embeds `compress_native` of `src/compression/integer/mod.rs`
(lines 50-80) for a `w`-byte integer type: probe the stats, choose the
compressor, then emit `codec tag / sizes / payload` with
`uncompressed_size = array.len() * size_of::<T>()`. The typed RLE payload
is the embedded `RLE.compress_native`; the Dict payload and estimate are
parameters, as in `choose_compressor_integer`. -/
def compress_native (w : Nat) (ext : ExtCompress) (dict_gain : ℚ) (dict_payload : List Nat)
    (values : List Int) (validity : Option (List Bool))
    (opts : WriteOptionsM Compression) (buf : List Nat) : List Nat :=
  let stats := gen_stats w values validity
  let compressor := choose_compressor_integer stats dict_gain opts
  let codec := match compressor with
    | LeafCompressor.Basic c => (CommonCompression.to_compression c).toU8
    | LeafCompressor.Extend c => c.toU8
  let res := match compressor with
    | LeafCompressor.Basic c => CommonCompression.compress ext c (valuesBytes w values)
    | LeafCompressor.Extend Compression.RLE =>
      ((RLE.compress_native w (values.map (toPattern w)) validity).length,
        RLE.compress_native w (values.map (toPattern w)) validity)
    | LeafCompressor.Extend _ => (dict_payload.length, dict_payload)
  write_sized buf codec res.2 res.1 (values.length * w)

/-- Modelled from the spec (§3): the codec tags of the wide enumeration as
returned by the `CommonCompression::to_compression` of the snapshot
`src/compression/boolean/mod.rs` pairs with. -/
def CommonCompression.toFull : CommonCompression → CompressionFull
  | CommonCompression.None => CompressionFull.None
  | CommonCompression.LZ4 => CompressionFull.LZ4
  | CommonCompression.ZSTD => CompressionFull.ZSTD
  | CommonCompression.SNAPPY => CompressionFull.SNAPPY

/-- Embeds `encode_bitmap` of `src/compression/boolean/mod.rs`
(lines 22-60): choose the compressor, then emit
`codec tag / sizes / payload` with `uncompressed_size = array.len()` -
the page's VALUE COUNT, not a byte length. The typed encoder payloads
(`OneValue`, boolean `RLE`) are parameters (`OneValue` is not among the
source files and the boolean `RLE::compress` calls an `encode_native`
from a different snapshot). -/
def encode_bitmap (ext : ExtCompress) (one_value_gain rle_gain : ℚ)
    (encoder_payload : CompressionFull → List Nat) (bits : List Bool)
    (opts : WriteOptionsM CompressionFull) (buf : List Nat) : List Nat :=
  let compressor := choose_compressor_boolean one_value_gain rle_gain opts
  let codec := match compressor with
    | LeafCompressor.Basic c => (CommonCompression.toFull c).toU8
    | LeafCompressor.Extend c => c.toU8
  let res := match compressor with
    | LeafCompressor.Basic c => CommonCompression.compress ext c (boolsToBytes bits)
    | LeafCompressor.Extend c => ((encoder_payload c).length, encoder_payload c)
  write_sized buf codec res.2 res.1 bits.length

/-- Outputs of the external byte-codec libraries behind the
`src/compression.rs` snapshot's `compress_lz4`/`compress_zstd`/
`compress_snappy` (these write into `scratch` from position 0 and return
the compressed size, so `&scratch[..compressed_size]` is the output). -/
def ExtCompressRs : Type :=
  CompressionRs → List Nat → List Nat

/-- Embeds `write_buffer` of `src/write/serialize.rs` (lines 330-360) for a
`w`-byte native type: the codec byte, then - written sequentially -
`compressed_size : u32 le`, `uncompressed_size : u32 le` (the byte length
of the cast value buffer), then the payload: the raw bytes for
`Compression::None`, the library output otherwise. -/
def write_buffer (w : Nat) (ext : ExtCompressRs) (compression : CompressionRs)
    (buffer : List Int) (out : List Nat) : List Nat :=
  let bytes := valuesBytes w buffer
  match compression with
  | CompressionRs.None =>
    out ++ ([CompressionRs.toU8 CompressionRs.None]
      ++ (u32le bytes.length ++ (u32le bytes.length ++ bytes)))
  | c =>
    out ++ ([CompressionRs.toU8 c]
      ++ (u32le (ext c bytes).length ++ (u32le bytes.length ++ ext c bytes)))

/-! ## The simple-page write path (`src/write/serialize.rs`) and read path
(`src/read/read_basic.rs`, `src/read/array/primitive.rs`)

The write side always prefixes a simple page with a
`(length, rep_levels_len, def_levels_len)` header; the read side's simple
path consumes no such header for a non-nullable field. The definitions
below embed both so the mismatch can be evaluated. -/

/-- Modelled from the spec: the encoded definition levels of a REQUIRED
(non-nullable) simple field are empty - `write_def_levels` (from the
external arrow2 crate) emits levels only for nullable fields, matching
§4.6's "validity stream (only when the logical field is nullable)". -/
def writeDefLevelsRequired : List Nat := []

/-- Embeds `write_validity` of `src/write/serialize.rs` (lines 167-186):
`length : u32 le`, `rep_levels_len = 0 : u32 le`,
`def_levels_len : u32 le`, then the encoded definition levels
(`def_levels` stands for the bytes `write_def_levels` produced). -/
def write_validity (length : Nat) (def_levels : List Nat) (out : List Nat) : List Nat :=
  out ++ (u32le length ++ (u32le 0 ++ (u32le def_levels.length ++ def_levels)))

/-- Embeds `write_simple` of `src/write/serialize.rs` (lines 37-98) for a
non-nullable primitive column of a `w`-byte type: `write_validity`
(called unconditionally, with empty definition levels for the required
field) followed by `write_primitive` = `write_buffer` on the values. -/
def write_simple_primitive (w : Nat) (ext : ExtCompressRs) (compression : CompressionRs)
    (values : List Int) (out : List Nat) : List Nat :=
  write_buffer w ext compression values
    (write_validity values.length writeDefLevelsRequired out)

/-- Outputs of the external decompression libraries behind `read_slice`
(`src/read/read_basic.rs` lines 110-145): the bytes
`decompress_lz4`/`decompress_zstd`/`decompress_snappy` place in the
output slice (a wrong-length output models a library error). -/
def ExtDecompressRs : Type :=
  CompressionRs → List Nat → List Nat

/-- Little-endian values of a byte buffer, `w` bytes each
(the `Vec<T>` the reader materializes from the raw page bytes). -/
def bytesToValues (w : Nat) (bytes : List Nat) : List Nat :=
  (listChunks bytes w).map leValue

/-- Embeds `batch_read_buffer` of `src/read/read_basic.rs` (lines 176-207)
for a `w`-byte type: codec byte, `compressed_size : u32 le`,
`uncompressed_size : u32 le`; for `Compression::None` it then reads
`length * size_of::<T>()` bytes straight into the output buffer
(`batch_read_uncompressed_buffer`), otherwise it decompresses
`compressed_size` bytes into that many output bytes (`read_slice`).
Returns the extended output buffer and the remaining input. -/
def batch_read_buffer (w : Nat) (extD : ExtDecompressRs) (input : List Nat)
    (length : Nat) (out_buf : List Nat) : Option (List Nat × List Nat) :=
  match readU8 input with
  | none => none
  | some (codec, r1) =>
    match CompressionRs.from_codec codec with
    | none => none
    | some compression =>
      match readU32le r1 with
      | none => none
      | some (compressed_size, r2) =>
        match readU32le r2 with
        | none => none
        | some (_uncompressed_size, r3) =>
          match compression with
          | CompressionRs.None =>
            if length * w ≤ r3.length then
              some (out_buf ++ bytesToValues w (r3.take (length * w)),
                r3.drop (length * w))
            else none
          | c =>
            if compressed_size ≤ r3.length
                ∧ (extD c (r3.take compressed_size)).length = length * w then
              some (out_buf ++ bytesToValues w (extD c (r3.take compressed_size)),
                r3.drop compressed_size)
            else none

/-- The per-page loop of `read_primitive` (`src/read/array/primitive.rs`
lines 185-215) for a non-nullable column (`validity_builder = None`,
so no `read_validity` call): one `batch_read_buffer` per page meta. -/
def read_primitive_required_go (w : Nat) (extD : ExtDecompressRs) :
    List Nat → List Nat → List Nat → Option (List Nat × List Nat)
  | [], input, out_buf => some (out_buf, input)
  | n :: rest, input, out_buf =>
    match batch_read_buffer w extD input n out_buf with
    | none => none
    | some (out1, r1) => read_primitive_required_go w extD rest r1 out1

/-- Embeds `read_primitive` of `src/read/array/primitive.rs`
(lines 185-215) specialized to a non-nullable column: the decoded value
buffer (as `w`-byte little-endian patterns), given the pages' value
counts. -/
def read_primitive_required (w : Nat) (extD : ExtDecompressRs)
    (page_values : List Nat) (input : List Nat) : Option (List Nat) :=
  match read_primitive_required_go w extD page_values input [] with
  | none => none
  | some (out, _) => some out

/-! ## Byte-slice page decoding (`src/read/array/binary.rs`,
`src/compression/dict.rs`) -/

/-- Reading an `u64` little-endian
(`byteorder::ReadBytesExt::read_u64::<LittleEndian>`). -/
def readU64le (input : List Nat) : Option (Nat × List Nat) :=
  if 8 ≤ input.length then some (leValue (input.take 8), input.drop 8) else none

/-- Modelled from the spec: the `read_buffer(reader, n, scratch, out)` the
raw-mode path of `read_binary_buffer` calls is not among the source files
(the `read_basic.rs` in the tree holds a three-argument variant); per §6
each value buffer is `codec tag / compressed_size : u32 le /
uncompressed_size : u32 le / payload`, the payload of a raw-mode codec
being the opaque byte image of the `n`-value buffer, which is appended to
`out`. -/
def readBufferInto (w : Nat) (extD : ExtDecompressRs) (input : List Nat)
    (n : Nat) (out : List Nat) : Option (List Nat × List Nat) :=
  match readU8 input with
  | none => none
  | some (codec, r1) =>
    match CompressionRs.from_codec codec with
    | none => none
    | some compression =>
      match readU32le r1 with
      | none => none
      | some (compressed_size, r2) =>
        match readU32le r2 with
        | none => none
        | some (_uncompressed_size, r3) =>
          match compression with
          | CompressionRs.None =>
            if n * w ≤ r3.length then
              some (out ++ bytesToValues w (r3.take (n * w)), r3.drop (n * w))
            else none
          | c =>
            if compressed_size ≤ r3.length
                ∧ (extD c (r3.take compressed_size)).length = n * w then
              some (out ++ bytesToValues w (extD c (r3.take compressed_size)),
                r3.drop compressed_size)
            else none

/-- Embeds the `// fix offset` loop of `read_binary_buffer`
(`src/read/array/binary.rs` lines 296-302): ascending over
`offsets.len() - length - 1 ..< offsets.len() - 1`, each slot `i` is
overwritten with `start_offset + offsets[i + 1]`, reading `offsets[i+1]`
before it is itself overwritten - so the loop maps over the original
contents. The final appended slot (`offsets.len() - 1`) is never
rewritten. -/
def fixOffsets (start_offset : Nat) (offsets : List Nat) (length : Nat) : List Nat :=
  (List.range offsets.length).map (fun i =>
    if offsets.length - length - 1 ≤ i ∧ i < offsets.length - 1 then
      start_offset + offsets.getD (i + 1) 0
    else offsets.getD i 0)

/-- The `for _ in 0..=indices.max()` dictionary-entry loop of
`Dict::decompress_binary_array` (`src/compression/dict.rs` lines
135-144): each entry is a `u64 le` length followed by that many bytes;
`none` models the `general_err!` on a short buffer. Returns the entries
and the remaining input. -/
def readDictEntries : Nat → List Nat → Option (List (List Nat) × List Nat)
  | 0, input => some ([], input)
  | k + 1, input =>
    match readU64le input with
    | none => none
    | some (len, r1) =>
      if r1.length < len then none
      else
        match readDictEntries k (r1.drop len) with
        | none => none
        | some (entries, rest) => some (r1.take len :: entries, rest)

/-- The `for i in indices.iter()` emission loop of
`Dict::decompress_binary_array` (`src/compression/dict.rs` lines
153-161): append each indexed entry's bytes to `values`, advance
`last_offset` by its length and push it onto `offsets`. -/
def dictEmit (entries : List (List Nat)) :
    List Nat → Nat → List Nat → List Nat → List Nat × List Nat
  | [], _, offsets, values => (offsets, values)
  | i :: rest, last_offset, offsets, values =>
    let e := entries.getD i []
    dictEmit entries rest (last_offset + e.length)
      (offsets ++ [last_offset + e.length]) (values ++ e)

/-- Embeds `Dict::decompress_binary_array` of `src/compression/dict.rs`
lines 120-163: decode the RLE-coded `u32` index stream (the snapshot's
`rle.decode_native(input, length, &mut indices)`, whose behavior is that
of `RLE::decompress_native` at width 4), read the `0..=max` dictionary
entries, seed `last_offset` from the caller's offset buffer (pushing the
zero offset when it is empty), then emit the indexed entries. -/
def dict_decompress_binary_array (input : List Nat) (length : Nat)
    (offsets values : List Nat) : Option (List Nat × List Nat) :=
  match rleDecompressLoop 4 (input.length + 1) input length 0 [] with
  | none => none
  | some (indices, rest) =>
    match indices.max? with
    | none => none
    | some mx =>
      match readDictEntries (mx + 1) rest with
      | none => none
      | some (entries, _) =>
        let offsets1 := if offsets = [] then [0] else offsets
        let last := (offsets1.getLast?).getD 0
        some (dictEmit entries indices last offsets1 values)

/-- Embeds `read_binary_buffer` of `src/read/array/binary.rs`
(lines 279-329): read the page's codec tag; in raw mode, read the
`1 + length` page-intrinsic offsets and the value bytes into the shared
buffers and, when prior offsets exist, run the fix-offset loop; otherwise
read the inner codec tag and sizes and decompress with the typed codec
(`Dict::decompress_binary_array`; the other typed codecs are
`unreachable!()` there, modelled as `none`). Returns the offsets buffer,
the values buffer and the remaining input. -/
def read_binary_buffer (ow : Nat) (extD : ExtDecompressRs) (input : List Nat)
    (length : Nat) (offsets values : List Nat) :
    Option (List Nat × List Nat × List Nat) :=
  match readU8 input with
  | none => none
  | some (codec, r1) =>
    match Compression.from_codec codec with
    | none => none
    | some compression =>
      if compression.raw_mode then
        let start_offset := offsets.getLast?
        match readBufferInto ow extD r1 (1 + length) offsets with
        | none => none
        | some (offsets1, r2) =>
          match readBufferInto 1 extD r2 ((offsets1.getLast?).getD 0) values with
          | none => none
          | some (values1, r3) =>
            match start_offset with
            | some s => some (fixOffsets s offsets1 length, values1, r3)
            | none => some (offsets1, values1, r3)
      else
        match readU8 r1 with
        | none => none
        | some (codec2, r2) =>
          match Compression.from_codec codec2 with
          | none => none
          | some compression2 =>
            match readU32le r2 with
            | none => none
            | some (compressed_size, r3) =>
              match readU32le r3 with
              | none => none
              | some (_uncompressed_size, r4) =>
                if compressed_size ≤ r4.length then
                  match compression2 with
                  | Compression.Dict =>
                    match dict_decompress_binary_array (r4.take compressed_size)
                        length offsets values with
                    | none => none
                    | some (offsets1, values1) =>
                      some (offsets1, values1, r4.drop compressed_size)
                  | _ => none
                else none

end Strawboat

namespace Strawboat

/-! ## Theorems about byte primitives -/

theorem u32le_length (n : Nat) : (u32le n).length = 4 := rfl

theorem readU32le_u32le (n : Nat) (rest : List Nat) (h : n < 4294967296) :
    readU32le (u32le n ++ rest) = some (n, rest) := by
  simp only [u32le, List.cons_append, List.nil_append, readU32le]
  congr 1
  congr 1
  omega

theorem leBytes_length (w n : Nat) : (leBytes w n).length = w := by
  induction w generalizing n with
  | zero => rfl
  | succ w ih => simp [leBytes, ih]

theorem leValue_leBytes (w n : Nat) (h : n < 256 ^ w) : leValue (leBytes w n) = n := by
  induction w generalizing n with
  | zero =>
    simp only [leBytes, leValue]
    omega
  | succ w ih =>
    simp only [leBytes, leValue]
    rw [ih (n / 256)]
    · omega
    · have : 256 ^ (w + 1) = 256 ^ w * 256 := by ring
      omega

theorem readLeBytes_leBytes (w n : Nat) (rest : List Nat) (h : n < 256 ^ w) :
    readLeBytes w (leBytes w n ++ rest) = some (n, rest) := by
  have hlen : (leBytes w n).length = w := leBytes_length w n
  simp only [readLeBytes, List.length_append, hlen]
  rw [if_pos (by omega)]
  rw [List.take_append_of_le_length (by omega), List.drop_append_of_le_length (by omega)]
  rw [List.take_of_length_le (by omega), List.drop_eq_nil_of_le (by omega)]
  simp [leValue_leBytes w n h]

theorem readU32le_length {input : List Nat} {n : Nat} {rest : List Nat}
    (h : readU32le input = some (n, rest)) : input.length = rest.length + 4 := by
  match input, h with
  | b0 :: b1 :: b2 :: b3 :: r, h =>
    simp only [readU32le, Option.some.injEq, Prod.mk.injEq] at h
    simp [← h.2]

theorem readLeBytes_length {w : Nat} {input : List Nat} {n : Nat} {rest : List Nat}
    (h : readLeBytes w input = some (n, rest)) : input.length = rest.length + w := by
  simp only [readLeBytes] at h
  split at h
  · rename_i hw
    simp only [Option.some.injEq, Prod.mk.injEq] at h
    have := h.2
    subst this
    simp
    omega
  · exact absurd h (by simp)

end Strawboat

namespace Strawboat

/-! ## C6: the codec-tag enumeration accepted by `from_codec` -/

/-- C6 counterexample: the spec's claim that `Compression::from_codec`
accepts the full twelve-tag enumeration fails at tag 12 (`OneValue`):
both `from_codec` functions in the sources reject it with `OutOfSpec`. -/
theorem C6_counterexample :
    Compression.from_codec 12 = none ∧ CompressionRs.from_codec 12 = none := by
  exact ⟨rfl, rfl⟩

/-- C6 (amended): `Compression::from_codec` of `src/compression/mod.rs`
accepts exactly the tags `{None=0, LZ4=1, Zstd=2, Snappy=3, RLE=10, Dict=11}`,
returning the corresponding codec, and returns an `OutOfSpec` error for every
other byte; the `src/compression.rs` variant accepts exactly `{0,1,2,3}`.
The tags 12-17 of the spec's enumeration are accepted by neither. -/
theorem C6_from_codec_closed_enumeration :
    (Compression.from_codec 0 = some Compression.None
      ∧ Compression.from_codec 1 = some Compression.LZ4
      ∧ Compression.from_codec 2 = some Compression.ZSTD
      ∧ Compression.from_codec 3 = some Compression.SNAPPY
      ∧ Compression.from_codec 10 = some Compression.RLE
      ∧ Compression.from_codec 11 = some Compression.Dict)
    ∧ (∀ t : Nat, t ∉ [0, 1, 2, 3, 10, 11] → Compression.from_codec t = none)
    ∧ (CompressionRs.from_codec 0 = some CompressionRs.None
      ∧ CompressionRs.from_codec 1 = some CompressionRs.LZ4
      ∧ CompressionRs.from_codec 2 = some CompressionRs.ZSTD
      ∧ CompressionRs.from_codec 3 = some CompressionRs.SNAPPY)
    ∧ (∀ t : Nat, t ∉ [0, 1, 2, 3] → CompressionRs.from_codec t = none) := by
  refine ⟨⟨rfl, rfl, rfl, rfl, rfl, rfl⟩, ?_, ⟨rfl, rfl, rfl, rfl⟩, ?_⟩
  · intro t ht
    unfold Compression.from_codec
    split <;> simp_all
  · intro t ht
    unfold CompressionRs.from_codec
    split <;> simp_all

/-- C6 witness: the rejection clauses applied at the concrete byte 4. -/
theorem C6_witness :
    Compression.from_codec 4 = none ∧ CompressionRs.from_codec 4 = none :=
  ⟨C6_from_codec_closed_enumeration.2.1 4 (by decide),
   C6_from_codec_closed_enumeration.2.2.2 4 (by decide)⟩

/-! ## C9: ColumnMeta helpers -/

theorem sum_take_map_length (l : List PageMeta) (s : Nat) (hs : s ≤ l.length) :
    ((l.take s).map PageMeta.length).sum
      = ∑ i in Finset.range s, (l.getD i ⟨0, 0⟩).length := by
  induction l generalizing s with
  | nil =>
    simp only [List.length_nil, Nat.le_zero] at hs
    subst hs
    simp
  | cons p rest ih =>
    cases s with
    | zero => simp
    | succ s =>
      simp only [List.take_succ_cons, List.map_cons, List.sum_cons]
      rw [Finset.sum_range_succ']
      simp only [List.getD_cons_succ, List.getD_cons_zero]
      rw [ih s (by simpa using hs)]
      omega

theorem slice_pages_getD (m : ColumnMeta) (s e i : Nat) (hi : i < e - s) :
    (m.slice s e).pages.getD i ⟨0, 0⟩ = m.pages.getD (s + i) ⟨0, 0⟩ := by
  simp only [ColumnMeta.slice, List.getD_eq_getElem?_getD]
  rw [List.getElem?_take, if_pos hi, List.getElem?_drop]

/-- C9: for every `ColumnMeta` with `N` pages and `start < N`,
`start ≤ end ≤ N`: `slice(start, end)` keeps exactly the pages
`[start, end)` and advances the offset by the byte lengths of the first
`start` pages; `skip_one_page()` equals `slice(1, N)`; and `total_len()`
is the sum of all page byte lengths. -/
theorem C9_column_meta_helpers (m : ColumnMeta) (s e : Nat)
    (hs : s < m.pages.length) (hse : s ≤ e) (he : e ≤ m.pages.length) :
    (m.slice s e).pages.length = e - s
    ∧ (∀ i, i < e - s → (m.slice s e).pages.getD i ⟨0, 0⟩ = m.pages.getD (s + i) ⟨0, 0⟩)
    ∧ (m.slice s e).offset
        = m.offset + ∑ i in Finset.range s, (m.pages.getD i ⟨0, 0⟩).length
    ∧ m.skip_one_page = m.slice 1 m.pages.length
    ∧ m.total_len = ∑ i in Finset.range m.pages.length, (m.pages.getD i ⟨0, 0⟩).length := by
  refine ⟨?_, ?_, ?_, rfl, ?_⟩
  · simp only [ColumnMeta.slice, List.length_take, List.length_drop]
    omega
  · intro i hi
    exact slice_pages_getD m s e i hi
  · simp only [ColumnMeta.slice]
    rw [sum_take_map_length m.pages s (Nat.le_of_lt hs)]
    omega
  · have h := sum_take_map_length m.pages m.pages.length (Nat.le_refl _)
    simpa [ColumnMeta.total_len] using h

/-- C9 witness: the helper characterization applied to a concrete
three-page column meta, sliced to its last two pages. -/
theorem C9_witness :
    let m : ColumnMeta := ⟨100, [⟨10, 5⟩, ⟨20, 6⟩, ⟨30, 7⟩]⟩
    (m.slice 1 3).pages.length = 3 - 1
    ∧ (∀ i, i < 3 - 1 → (m.slice 1 3).pages.getD i ⟨0, 0⟩ = m.pages.getD (1 + i) ⟨0, 0⟩)
    ∧ (m.slice 1 3).offset
        = m.offset + ∑ i in Finset.range 1, (m.pages.getD i ⟨0, 0⟩).length
    ∧ m.skip_one_page = m.slice 1 m.pages.length
    ∧ m.total_len = ∑ i in Finset.range m.pages.length, (m.pages.getD i ⟨0, 0⟩).length :=
  C9_column_meta_helpers ⟨100, [⟨10, 5⟩, ⟨20, 6⟩, ⟨30, 7⟩]⟩ 1 3
    (by decide) (by decide) (by decide)

end Strawboat

namespace Strawboat

/-! ## Lemmas about the integer RLE codec -/

theorem runsTotal_cons (r : Nat × Nat) (rs : List (Nat × Nat)) :
    runsTotal (r :: rs) = r.1 + runsTotal rs := by
  simp [runsTotal]

theorem expandRuns_cons (r : Nat × Nat) (rs : List (Nat × Nat)) :
    expandRuns (r :: rs) = List.replicate r.1 r.2 ++ expandRuns rs := by
  simp [expandRuns]

theorem runsToBytes_cons (w : Nat) (r : Nat × Nat) (rs : List (Nat × Nat)) :
    runsToBytes w (r :: rs) = u32le r.1 ++ (leBytes w r.2 ++ runsToBytes w rs) := by
  simp [runsToBytes]

theorem runsToBytes_length (w : Nat) (rs : List (Nat × Nat)) :
    (runsToBytes w rs).length = rs.length * (4 + w) := by
  induction rs with
  | nil => simp [runsToBytes]
  | cons r rs ih =>
    rw [runsToBytes_cons]
    simp only [List.length_append, u32le_length, leBytes_length, ih, List.length_cons]
    ring

/-- Every position of the column adds exactly one to some flushed run
length, so the flushed run lengths sum to the position count plus the
pending `seen_count`. -/
theorem rleRunsLoop_total (pairs : List (Nat × Bool)) :
    ∀ seen last all_null,
      runsTotal (rleRunsLoop pairs seen last all_null) = pairs.length + seen := by
  induction pairs with
  | nil =>
    intro seen last all_null
    by_cases h : seen = 0 <;> simp [rleRunsLoop, h, runsTotal]
  | cons p rest ih =>
    intro seen last all_null
    obtain ⟨item, valid⟩ := p
    cases valid with
    | false =>
      simp only [rleRunsLoop, Bool.false_eq_true, if_false, List.length_cons]
      rw [ih]
      omega
    | true =>
      cases all_null with
      | true =>
        simp only [rleRunsLoop, if_true, List.length_cons]
        rw [ih]
        omega
      | false =>
        by_cases hne : last ≠ item
        · simp only [rleRunsLoop, Bool.false_eq_true, if_false, if_true, if_pos hne,
            List.length_cons, runsTotal_cons]
          rw [ih]
          omega
        · simp only [rleRunsLoop, Bool.false_eq_true, if_false, if_true, if_neg hne,
            List.length_cons]
          rw [ih]
          omega

/-- Every flushed run length is at least one (the pending count is positive
as soon as a valid value was seen, and the final flush is guarded by
`seen_count != 0`). -/
theorem rleRunsLoop_counts_pos (pairs : List (Nat × Bool)) :
    ∀ seen last all_null, (all_null = false → 1 ≤ seen) →
      ∀ r ∈ rleRunsLoop pairs seen last all_null, 1 ≤ r.1 := by
  induction pairs with
  | nil =>
    intro seen last all_null _ r hr
    simp only [rleRunsLoop] at hr
    split at hr
    · rename_i h
      simp only [List.mem_singleton] at hr
      subst hr
      omega
    · simp at hr
  | cons p rest ih =>
    intro seen last all_null hinv r hr
    obtain ⟨item, valid⟩ := p
    cases valid with
    | false =>
      simp only [rleRunsLoop, Bool.false_eq_true, if_false] at hr
      exact ih (seen + 1) last all_null (fun _ => by omega) r hr
    | true =>
      cases all_null with
      | true =>
        simp only [rleRunsLoop, if_true] at hr
        exact ih (seen + 1) item false (fun _ => by omega) r hr
      | false =>
        by_cases hne : last ≠ item
        · simp only [rleRunsLoop, Bool.false_eq_true, if_false, if_true, if_pos hne,
            List.mem_cons] at hr
          rcases hr with hr | hr
          · subst hr
            exact hinv rfl
          · exact ih 1 item false (fun _ => Nat.le_refl 1) r hr
        · simp only [rleRunsLoop, Bool.false_eq_true, if_false, if_true, if_neg hne] at hr
          exact ih (seen + 1) last false (fun _ => by omega) r hr

/-- Every flushed run value is either the running `last_value` or one of the
column's values, so a bound on those bounds the flushed values. -/
theorem rleRunsLoop_values_lt (B : Nat) (pairs : List (Nat × Bool)) :
    ∀ seen last all_null, last < B → (∀ p ∈ pairs, p.1 < B) →
      ∀ r ∈ rleRunsLoop pairs seen last all_null, r.2 < B := by
  induction pairs with
  | nil =>
    intro seen last all_null hlast _ r hr
    simp only [rleRunsLoop] at hr
    split at hr
    · simp only [List.mem_singleton] at hr
      subst hr
      exact hlast
    · simp at hr
  | cons p rest ih =>
    intro seen last all_null hlast hall r hr
    obtain ⟨item, valid⟩ := p
    have hitem : item < B := hall (item, valid) (List.mem_cons_self _ _)
    have hrest : ∀ q ∈ rest, q.1 < B := fun q hq => hall q (List.mem_cons_of_mem _ hq)
    cases valid with
    | false =>
      simp only [rleRunsLoop, Bool.false_eq_true, if_false] at hr
      exact ih (seen + 1) last all_null hlast hrest r hr
    | true =>
      cases all_null with
      | true =>
        simp only [rleRunsLoop, if_true] at hr
        exact ih (seen + 1) item false hitem hrest r hr
      | false =>
        by_cases hne : last ≠ item
        · simp only [rleRunsLoop, Bool.false_eq_true, if_false, if_true, if_pos hne,
            List.mem_cons] at hr
          rcases hr with hr | hr
          · subst hr
            exact hlast
          · exact ih 1 item false hitem hrest r hr
        · simp only [rleRunsLoop, Bool.false_eq_true, if_false, if_true, if_neg hne] at hr
          exact ih (seen + 1) last false hlast hrest r hr

theorem runsTotal_member_le (runs : List (Nat × Nat)) :
    ∀ r ∈ runs, r.1 ≤ runsTotal runs := by
  induction runs with
  | nil => simp
  | cons a rs ih =>
    intro r hr
    rcases List.mem_cons.mp hr with h | h
    · subst h
      rw [runsTotal_cons]
      omega
    · have := ih r h
      rw [runsTotal_cons]
      omega

/-- Expansion of the runs flushed after the first valid value: the pending
run plus the forward fill of the remaining column. -/
theorem expandRuns_loop_not_null (pairs : List (Nat × Bool)) :
    ∀ seen last, expandRuns (rleRunsLoop pairs seen last false)
      = List.replicate seen last ++ fillForward last pairs := by
  induction pairs with
  | nil =>
    intro seen last
    by_cases h : seen = 0 <;> simp [rleRunsLoop, h, expandRuns, fillForward]
  | cons p rest ih =>
    intro seen last
    obtain ⟨item, valid⟩ := p
    cases valid with
    | false =>
      simp only [rleRunsLoop, Bool.false_eq_true, if_false]
      rw [ih (seen + 1) last]
      simp [fillForward, List.replicate_succ', List.append_assoc]
    | true =>
      by_cases hne : last ≠ item
      · simp only [rleRunsLoop, Bool.false_eq_true, if_false, if_true, if_pos hne,
          expandRuns_cons]
        rw [ih 1 item]
        simp [fillForward]
      · have heq : last = item := by omega
        subst heq
        simp only [rleRunsLoop, Bool.false_eq_true, if_false, if_true, if_neg hne]
        rw [ih (seen + 1) last]
        simp [fillForward, List.replicate_succ', List.append_assoc]

/-- Expansion of the runs flushed while still in the all-null state: leading
nulls join the run of the first valid value, and an all-null column becomes
one run of the current `last_value`. -/
theorem expandRuns_loop_all_null (pairs : List (Nat × Bool)) :
    ∀ seen last, expandRuns (rleRunsLoop pairs seen last true)
      = match firstValidValue pairs with
        | some v => List.replicate seen v ++ fillForward v pairs
        | none => List.replicate (seen + pairs.length) last := by
  induction pairs with
  | nil =>
    intro seen last
    by_cases h : seen = 0 <;> simp [rleRunsLoop, h, expandRuns, firstValidValue]
  | cons p rest ih =>
    intro seen last
    obtain ⟨item, valid⟩ := p
    cases valid with
    | true =>
      simp only [rleRunsLoop, if_true, firstValidValue]
      rw [expandRuns_loop_not_null rest (seen + 1) item]
      simp [fillForward, List.replicate_succ', List.append_assoc]
    | false =>
      simp only [rleRunsLoop, Bool.false_eq_true, if_false, firstValidValue]
      rw [ih (seen + 1) last]
      cases hfv : firstValidValue rest with
      | some v => simp [hfv, fillForward, List.replicate_succ', List.append_assoc]
      | none =>
        simp only [hfv, List.length_cons]
        congr 1
        omega

theorem fillForward_length (pairs : List (Nat × Bool)) :
    ∀ c, (fillForward c pairs).length = pairs.length := by
  induction pairs with
  | nil => intro c; rfl
  | cons p rest ih =>
    intro c
    obtain ⟨v, valid⟩ := p
    cases valid <;> simp [fillForward, ih]

theorem fillForward_no_valid (pairs : List (Nat × Bool)) :
    firstValidValue pairs = none →
      ∀ c, fillForward c pairs = List.replicate pairs.length c := by
  induction pairs with
  | nil => intro _ c; rfl
  | cons p rest ih =>
    intro h c
    obtain ⟨v, valid⟩ := p
    cases valid with
    | true => simp [firstValidValue] at h
    | false =>
      simp only [firstValidValue] at h
      simp [fillForward, ih h, List.replicate_succ]

/-- The decode loop on a well-formed run stream: with positive run lengths
summing (from `num_values`) exactly to `length`, it consumes every run,
reproduces their expansion, and stops exactly at the end of the stream. -/
theorem rleDecompressLoop_runs (w : Nat) (runs : List (Nat × Nat)) :
    ∀ (fuel : Nat) (rest : List Nat) (length num : Nat) (acc : List Nat),
      runs ≠ [] →
      (∀ r ∈ runs, 1 ≤ r.1) →
      (∀ r ∈ runs, r.1 < 4294967296) →
      (∀ r ∈ runs, r.2 < 256 ^ w) →
      num + runsTotal runs = length →
      runs.length ≤ fuel →
      rleDecompressLoop w fuel (runsToBytes w runs ++ rest) length num acc
        = some (acc ++ expandRuns runs, rest) := by
  induction runs with
  | nil =>
    intro _ _ _ _ _ hne
    exact absurd rfl hne
  | cons r rs ih =>
    intro fuel rest length num acc _ hpos hlt hval hsum hfuel
    obtain ⟨c, v⟩ := r
    cases fuel with
    | zero => simp at hfuel
    | succ f =>
      have hc32 : c < 4294967296 := hlt (c, v) (List.mem_cons_self _ _)
      have hvw : v < 256 ^ w := hval (c, v) (List.mem_cons_self _ _)
      rw [runsToBytes_cons, List.append_assoc]
      simp only [rleDecompressLoop, readU32le_u32le c _ hc32, List.append_assoc,
        readLeBytes_leBytes w v _ hvw]
      rcases rs with _ | ⟨r2, rs2⟩
      · have hlen : num + c = length := by
          rw [runsTotal_cons] at hsum
          simpa [runsTotal] using hsum
        rw [if_pos (by omega)]
        simp [expandRuns_cons, expandRuns, runsToBytes]
      · have h2 : 1 ≤ r2.1 := hpos r2 (List.mem_cons_of_mem _ (List.mem_cons_self _ _))
        have h2le : r2.1 ≤ runsTotal (r2 :: rs2) := runsTotal_member_le _ r2 (List.mem_cons_self _ _)
        have hlt2 : num + c < length := by
          rw [runsTotal_cons] at hsum
          omega
        rw [if_neg (by omega)]
        rw [ih f rest length (num + c) (acc ++ List.replicate c v)
          (by simp)
          (fun q hq => hpos q (List.mem_cons_of_mem _ hq))
          (fun q hq => hlt q (List.mem_cons_of_mem _ hq))
          (fun q hq => hval q (List.mem_cons_of_mem _ hq))
          (by rw [runsTotal_cons] at hsum; omega)
          (by simpa using Nat.le_of_succ_le_succ (by simpa using hfuel))]
        simp [expandRuns_cons, List.append_assoc]

/-- Whenever the decode loop returns success it has appended a block of
values whose count, added to the entry `num_values`, reaches `length`. -/
theorem rleDecompressLoop_ge (w : Nat) :
    ∀ (fuel : Nat) (input : List Nat) (length num : Nat) (acc arr rest : List Nat),
      rleDecompressLoop w fuel input length num acc = some (arr, rest) →
      ∃ ext, arr = acc ++ ext ∧ length ≤ num + ext.length := by
  intro fuel
  induction fuel with
  | zero =>
    intro input length num acc arr rest h
    simp [rleDecompressLoop] at h
  | succ f ih =>
    intro input length num acc arr rest h
    simp only [rleDecompressLoop] at h
    cases hu : readU32le input with
    | none => rw [hu] at h; simp at h
    | some p =>
      obtain ⟨len, r1⟩ := p
      simp only [hu] at h
      cases hb : readLeBytes w r1 with
      | none =>
        simp only [hb] at h
        exact Option.noConfusion h
      | some q =>
        obtain ⟨t, r2⟩ := q
        simp only [hb] at h
        by_cases hge : num + len ≥ length
        · rw [if_pos hge] at h
          simp only [Option.some.injEq, Prod.mk.injEq] at h
          refine ⟨List.replicate len t, h.1.symm, ?_⟩
          simp only [List.length_replicate]
          omega
        · rw [if_neg hge] at h
          obtain ⟨ext, h1, h2⟩ := ih r2 length (num + len) (acc ++ List.replicate len t) arr rest h
          refine ⟨List.replicate len t ++ ext, ?_, ?_⟩
          · rw [h1, List.append_assoc]
          · simp only [List.length_append, List.length_replicate]
            omega

end Strawboat

namespace Strawboat

/-! ## C10: null absorption in the integer RLE codec -/

theorem zipValidity_length (values : List Nat) (validity : Option (List Bool))
    (hval : ∀ bits, validity = some bits → bits.length = values.length) :
    (zipValidity values validity).length = values.length := by
  cases validity with
  | none => simp [zipValidity]
  | some bits => simp [zipValidity, hval bits rfl]

theorem zipValidity_fst_mem (values : List Nat) (validity : Option (List Bool)) :
    ∀ p ∈ zipValidity values validity, p.1 ∈ values := by
  cases validity with
  | none =>
    intro p hp
    simp only [zipValidity, List.mem_map] at hp
    obtain ⟨v, hv, hveq⟩ := hp
    rw [← hveq]
    exact hv
  | some bits =>
    intro p hp
    obtain ⟨a, b⟩ := p
    simp only [zipValidity] at hp
    exact (List.of_mem_zip hp).1

/-- Expanding the runs the encoder flushes for a whole column yields its
forward fill: nulls repeat the enclosing run's value. -/
theorem expandRuns_rleRuns (values : List Nat) (validity : Option (List Bool)) :
    expandRuns (rleRuns values validity) = rleFill (zipValidity values validity) := by
  rw [rleRuns, expandRuns_loop_all_null]
  cases hfv : firstValidValue (zipValidity values validity) with
  | some v => simp [rleFill, hfv]
  | none =>
    simp only [rleFill, hfv, Option.getD_none]
    rw [fillForward_no_valid _ hfv 0]
    simp

/-- C10: for every non-empty primitive column (of machine-realizable
length) with an optional validity mask, the integer RLE encoder absorbs
null positions into the enclosing run: the flushed `u32` run lengths sum
to exactly the column length, and decoding the payload with that length
succeeds, consumes the whole payload, and yields exactly that many
values - the column's forward fill, in which every null position carries
the value of its enclosing run (the nearest preceding valid value,
leading nulls carrying the first valid value, and an all-null column
carrying `T::default()`). -/
theorem C10_rle_null_absorption (w : Nat) (values : List Nat) (validity : Option (List Bool))
    (hne : values ≠ [])
    (hlen : values.length < 4294967296)
    (hbound : ∀ v ∈ values, v < 256 ^ w)
    (hval : ∀ bits, validity = some bits → bits.length = values.length) :
    runsTotal (rleRuns values validity) = values.length
    ∧ RLE.decompress_native w (RLE.compress_native w values validity) values.length
        = some (rleFill (zipValidity values validity), [])
    ∧ (rleFill (zipValidity values validity)).length = values.length := by
  have hp : (zipValidity values validity).length = values.length :=
    zipValidity_length values validity hval
  have hpos0 : 0 < values.length := List.length_pos.mpr hne
  have htotal : runsTotal (rleRuns values validity) = values.length := by
    rw [rleRuns, rleRunsLoop_total]
    simpa using hp
  have hcounts : ∀ r ∈ rleRuns values validity, 1 ≤ r.1 :=
    rleRunsLoop_counts_pos _ 0 0 true (fun h => Bool.noConfusion h)
  have hcounts32 : ∀ r ∈ rleRuns values validity, r.1 < 4294967296 := by
    intro r hr
    have := runsTotal_member_le _ r hr
    omega
  have hvals : ∀ r ∈ rleRuns values validity, r.2 < 256 ^ w := by
    apply rleRunsLoop_values_lt
    · exact Nat.pos_pow_of_pos w (by norm_num)
    · intro p hp2
      exact hbound p.1 (zipValidity_fst_mem values validity p hp2)
  have hrne : rleRuns values validity ≠ [] := by
    intro h
    rw [h] at htotal
    simp [runsTotal] at htotal
    omega
  have hfuel : (rleRuns values validity).length
      ≤ (runsToBytes w (rleRuns values validity)).length + 1 := by
    rw [runsToBytes_length]
    have := Nat.mul_le_mul_left (rleRuns values validity).length
      (show 1 ≤ 4 + w by omega)
    omega
  have hdec := rleDecompressLoop_runs w (rleRuns values validity)
    ((runsToBytes w (rleRuns values validity)).length + 1) [] values.length 0 []
    hrne hcounts hcounts32 hvals (by simpa using htotal) hfuel
  rw [List.append_nil] at hdec
  refine ⟨htotal, ?_, ?_⟩
  · rw [RLE.decompress_native, RLE.compress_native, hdec, List.nil_append,
      expandRuns_rleRuns]
  · rw [rleFill, fillForward_length]
    exact hp

/-- C10 witness: the round trip applied to the two-value `u8` column
`[9, 5]` whose first position is null - the leading null joins the run of
the first valid value, so the decoded column is `[5, 5]`. -/
theorem C10_witness :
    RLE.decompress_native 1 (RLE.compress_native 1 [9, 5] (some [false, true])) 2
      = some ([5, 5], [])
    ∧ runsTotal (rleRuns [9, 5] (some [false, true])) = 2 := by
  have h := C10_rle_null_absorption 1 [9, 5] (some [false, true]) (by decide) (by decide)
    (by decide)
    (by intro bits hb; injection hb with hb2; rw [← hb2]; decide)
  exact ⟨h.2.1.trans (by decide), h.1.trans (by decide)⟩

/-! ## C3: decoded value counts per codec branch -/

/-- C3 counterexample: a page whose decode call returns success need not
yield `value_count` values - the boolean RLE decoder's
`while !input.is_empty()` loop exits immediately on an empty payload and
returns `Ok(())` with zero values appended, though `value_count = 1`. -/
theorem C3_counterexample :
    RLE.decompress_bitmap [] 1 = some [] ∧ ([] : List Bool).length ≠ 1 :=
  ⟨rfl, by decide⟩

theorem sum_map_all_eq {α : Type} (l : List α) (f : α → Nat) (c : Nat)
    (h : ∀ a ∈ l, f a = c) : (l.map f).sum = l.length * c := by
  induction l with
  | nil => simp
  | cons a rest ih =>
    simp only [List.map_cons, List.sum_cons, List.length_cons]
    rw [h a (List.mem_cons_self _ _), ih (fun b hb => h b (List.mem_cons_of_mem _ hb))]
    ring

/-- C3 (amended): for a page whose decode call returns success with
declared value count `n`: the bit-packing decoder appends exactly `n`
values (for every input); the integer RLE decoder appends at least `n`
values - the whole runs it consumed, which can exceed `n` when the final
run overshoots; and (per the counterexample) the boolean RLE decoder stops
at end of input and can return success with fewer than `n` values. -/
theorem C3_decoded_value_counts :
    (∀ input length out, Bitpacking.decompress input length = some out → out.length = length)
    ∧ (∀ w input length arr rest,
        RLE.decompress_native w input length = some (arr, rest) → length ≤ arr.length) := by
  constructor
  · intro input length out h
    match input, h with
    | width :: data, h =>
      simp only [Bitpacking.decompress] at h
      split at h
      · exact Option.noConfusion h
      · simp only [Option.some.injEq] at h
        subst h
        have h128 : ∀ b : Nat, ((match (listChunks data (block_need_bytes width)).get? b with
            | none => List.replicate 128 0
            | some chunk => unpackBlock chunk width) : List Nat).length = 128 := by
          intro b
          cases (listChunks data (block_need_bytes width)).get? b <;> simp [unpackBlock]
        have hsum := sum_map_all_eq (List.range (align length 128 / 128))
          (List.length ∘ fun b =>
            match (listChunks data (block_need_bytes width)).get? b with
            | none => List.replicate 128 0
            | some chunk => unpackBlock chunk width) 128
          (fun a _ => h128 a)
        rw [List.length_take, List.length_flatten, List.map_map, hsum, List.length_range]
        have hdiv : align length 128 / 128 * 128 = align length 128 := by
          have h1 : align length 128 = (length + 127) / 128 * 128 := rfl
          rw [h1, Nat.mul_div_cancel _ (by norm_num)]
        have hge : length ≤ align length 128 := by
          have h1 : align length 128 = (length + 127) / 128 * 128 := rfl
          rw [h1]
          omega
        omega
  · intro w input length arr rest h
    obtain ⟨ext, h1, h2⟩ := rleDecompressLoop_ge w (input.length + 1) input length 0 [] arr rest h
    rw [h1]
    simpa using h2

/-- C3 witness: the count clauses applied to a concrete three-value
bit-packed page of width 1 and a concrete two-value RLE page. -/
theorem C3_witness :
    Bitpacking.decompress [1, 7] 3 = some [1, 1, 1]
    ∧ ([1, 1, 1] : List Nat).length = 3
    ∧ RLE.decompress_native 1 (u32le 2 ++ [9]) 2 = some ([9, 9], [])
    ∧ 2 ≤ ([9, 9] : List Nat).length := by
  have hbp : Bitpacking.decompress [1, 7] 3 = some [1, 1, 1] := by decide
  have hrle : RLE.decompress_native 1 (u32le 2 ++ [9]) 2 = some ([9, 9], []) := by decide
  exact ⟨hbp, C3_decoded_value_counts.1 [1, 7] 3 [1, 1, 1] hbp, hrle,
    C3_decoded_value_counts.2 1 (u32le 2 ++ [9]) 2 [9, 9] [] hrle⟩

end Strawboat

namespace Strawboat

/-! ## C7: the stats probe's min/max -/

/-- One `gen_stats` iteration drives `min`/`max` exactly like `min`/`max`
with the current value - with no regard to the validity bit. -/
theorem genStatsStep_minmax (st : GenStatsState) (p : Int × Bool) (h : st.min ≤ st.max) :
    (genStatsStep st p).min = min st.min p.1 ∧ (genStatsStep st p).max = max st.max p.1 := by
  simp only [genStatsStep]
  by_cases hv : p.2 <;>
    simp only [hv, if_true, if_false, Bool.false_eq_true] <;>
    split_ifs with h1 h2 <;>
    simp_all [min_def, max_def] <;>
    split_ifs <;>
    omega

theorem genStats_fold_minmax (pairs : List (Int × Bool)) :
    ∀ st : GenStatsState, st.min ≤ st.max →
      (pairs.foldl genStatsStep st).min = pairs.foldl (fun a p => min a p.1) st.min
      ∧ (pairs.foldl genStatsStep st).max = pairs.foldl (fun a p => max a p.1) st.max := by
  induction pairs with
  | nil => intro st _; exact ⟨rfl, rfl⟩
  | cons p rest ih =>
    intro st h
    simp only [List.foldl_cons]
    obtain ⟨h1, h2⟩ := genStatsStep_minmax st p h
    have hle : (genStatsStep st p).min ≤ (genStatsStep st p).max := by
      rw [h1, h2]
      exact le_trans (min_le_left _ _) (le_trans h (le_max_left _ _))
    obtain ⟨ih1, ih2⟩ := ih (genStatsStep st p) hle
    rw [ih1, ih2, h1, h2]
    exact ⟨rfl, rfl⟩

theorem zipValidity_map_fst {α : Type} (values : List α) (validity : Option (List Bool))
    (hval : ∀ bits, validity = some bits → bits.length = values.length) :
    (zipValidity values validity).map Prod.fst = values := by
  cases validity with
  | none =>
    simp only [zipValidity, List.map_map]
    have hid : (Prod.fst ∘ fun v : α => (v, true)) = id := rfl
    rw [hid, List.map_id]
  | some bits =>
    simp only [zipValidity]
    exact List.map_fst_zip values bits (le_of_eq (hval bits rfl).symm)

/-- C7 (amended): `gen_stats` folds `min` and `max` over ALL stored values,
valid or not, seeded with `T::default()` (the `else if` update scheme keeps
`min <= max`)- so `min = min(0, minimum of all values)` and
`max = max(0, maximum of all values)`, and invalid positions do influence
them. -/
theorem C7_gen_stats_minmax (w : Nat) (values : List Int) (validity : Option (List Bool))
    (hval : ∀ bits, validity = some bits → bits.length = values.length) :
    (gen_stats w values validity).min = values.foldl (fun a v => min a v) 0
    ∧ (gen_stats w values validity).max = values.foldl (fun a v => max a v) 0 := by
  have hfst := zipValidity_map_fst values validity hval
  have h := genStats_fold_minmax (zipValidity values validity)
    { is_sorted := true, last_value := 0, run_count := 0, min := 0, max := 0, distinct := [] }
    (le_refl 0)
  constructor
  · show ((zipValidity values validity).foldl genStatsStep _).min = _
    rw [h.1]
    conv_rhs => rw [← hfst, List.foldl_map]
  · show ((zipValidity values validity).foldl genStatsStep _).max = _
    rw [h.2]
    conv_rhs => rw [← hfst, List.foldl_map]

/-- C7 counterexample: on the column `[0, -7]` whose second position is
null, the probe reports `min = -7` although the minimum over the valid
values is `0` - the invalid position does influence `min`. -/
theorem C7_counterexample :
    (gen_stats 4 [0, -7] (some [true, false])).min = -7
    ∧ minOverValid [0, -7] (some [true, false]) = some 0
    ∧ (-7 : Int) ≠ 0 := by
  refine ⟨by decide, by decide, by decide⟩

/-- C7 witness: the all-values fold applied to the same concrete column. -/
theorem C7_witness :
    (gen_stats 4 [0, -7] (some [true, false])).min
        = [0, -7].foldl (fun a v => min a v) 0
    ∧ (gen_stats 4 [0, -7] (some [true, false])).max
        = [0, -7].foldl (fun a v => max a v) 0 :=
  C7_gen_stats_minmax 4 [0, -7] (some [true, false])
    (by intro bits hb; injection hb with hb2; rw [← hb2]; decide)

/-! ## C4: codec selection -/

/-- When no non-forbidden candidate strictly beats the running maximum, the
selection loop keeps its current result. -/
theorem choose_loop_no_winner {α : Type} [DecidableEq α] (forbidden : List α) :
    ∀ (cands : List (α × ℚ)) (g : ℚ) (res : LeafCompressor α),
      (∀ cr ∈ cands, cr.1 ∉ forbidden → cr.2 ≤ g) →
      choose_compressor_loop forbidden g res cands = res := by
  intro cands
  induction cands with
  | nil => intro g res _; rfl
  | cons c rest ih =>
    intro g res h
    obtain ⟨a, r⟩ := c
    simp only [choose_compressor_loop]
    by_cases hf : a ∈ forbidden
    · rw [if_pos hf]
      exact ih g res (fun cr hcr => h cr (List.mem_cons_of_mem _ hcr))
    · have hle : r ≤ g := h (a, r) (List.mem_cons_self _ _) hf
      rw [if_neg hf, if_neg (not_lt.mpr hle)]
      exact ih g res (fun cr hcr => h cr (List.mem_cons_of_mem _ hcr))

/-- The selection loop returns the first non-forbidden candidate attaining
the strict maximum of the estimates, provided it beats the entry maximum:
all earlier candidates are strictly below it, all later ones at most it. -/
theorem choose_loop_winner {α : Type} [DecidableEq α] (forbidden : List α) :
    ∀ (cands S₁ S₂ : List (α × ℚ)) (c : α) (r : ℚ) (g : ℚ) (res : LeafCompressor α),
      cands.filter (fun cr => cr.1 ∉ forbidden) = S₁ ++ (c, r) :: S₂ →
      g < r →
      (∀ cr ∈ S₁, cr.2 < r) →
      (∀ cr ∈ S₂, cr.2 ≤ r) →
      choose_compressor_loop forbidden g res cands = LeafCompressor.Extend c := by
  intro cands
  induction cands with
  | nil =>
    intro S₁ S₂ c r g res hfil _ _ _
    simp only [List.filter_nil] at hfil
    exact absurd hfil.symm (List.append_ne_nil_of_right_ne_nil _ (List.cons_ne_nil _ _))
  | cons a rest ih =>
    intro S₁ S₂ c r g res hfil hg h1 h2
    obtain ⟨b, s⟩ := a
    by_cases hf : b ∈ forbidden
    · have hrest : rest.filter (fun cr => cr.1 ∉ forbidden) = S₁ ++ (c, r) :: S₂ := by
        rw [← hfil]
        simp [List.filter_cons, hf]
      simp only [choose_compressor_loop, if_pos hf]
      exact ih S₁ S₂ c r g res hrest hg h1 h2
    · have hfil2 : (b, s) :: rest.filter (fun cr => cr.1 ∉ forbidden) = S₁ ++ (c, r) :: S₂ := by
        rw [← hfil]
        simp [List.filter_cons, hf]
      cases S₁ with
      | nil =>
        simp only [List.nil_append] at hfil2
        have hbc : (b, s) = (c, r) := (List.cons.injEq _ _ _ _ ▸ hfil2).1
        have hrest : rest.filter (fun cr => cr.1 ∉ forbidden) = S₂ :=
          (List.cons.injEq _ _ _ _ ▸ hfil2).2
        obtain ⟨hb, hs⟩ := Prod.mk.injEq _ _ _ _ ▸ hbc
        subst hb
        subst hs
        simp only [choose_compressor_loop, if_neg hf, if_pos hg]
        apply choose_loop_no_winner
        intro cr hcr hcf
        apply h2
        rw [← hrest]
        simp only [List.mem_filter, decide_eq_true_eq]
        exact ⟨hcr, hcf⟩
      | cons s1 S₁t =>
        simp only [List.cons_append] at hfil2
        have hbs1 : (b, s) = s1 := (List.cons.injEq _ _ _ _ ▸ hfil2).1
        have hrest : rest.filter (fun cr => cr.1 ∉ forbidden) = S₁t ++ (c, r) :: S₂ :=
          (List.cons.injEq _ _ _ _ ▸ hfil2).2
        have hs : s < r := by
          have := h1 s1 (List.mem_cons_self _ _)
          rw [← hbs1] at this
          exact this
        have h1t : ∀ cr ∈ S₁t, cr.2 < r := fun cr hcr => h1 cr (List.mem_cons_of_mem _ hcr)
        simp only [choose_compressor_loop, if_neg hf]
        by_cases hgt : s > g
        · rw [if_pos hgt]
          exact ih S₁t S₂ c r s (LeafCompressor.Extend b) hrest hs h1t h2
        · rw [if_neg hgt]
          exact ih S₁t S₂ c r g res hrest hg h1t h2

/-- C4 (amended): with a `min_ratio` set, the chooser considers the default
general codec plus every type-applicable typed codec not in
`forbidden_compressions` and returns the typed codec with the highest
estimate among those whose estimate is STRICTLY GREATER than `min_ratio`
(ties at the maximum go to the earliest enumerated codec), falling back to
the default general codec when no typed codec strictly exceeds
`min_ratio`; when no `min_ratio` is set the default general codec is
always chosen. -/
theorem C4_codec_selection {α : Type} [DecidableEq α] (cands : List (α × ℚ))
    (opts : WriteOptionsM α) (m : Nat) (hm : opts.min_gain = some m) :
    ((∀ cr ∈ cands, cr.1 ∉ opts.forbidden_compressions → cr.2 ≤ (m : ℚ)) →
      choose_compressor cands opts = LeafCompressor.Basic opts.default_compression)
    ∧ (∀ (S₁ S₂ : List (α × ℚ)) (c : α) (r : ℚ),
        cands.filter (fun cr => cr.1 ∉ opts.forbidden_compressions) = S₁ ++ (c, r) :: S₂ →
        (m : ℚ) < r → (∀ cr ∈ S₁, cr.2 < r) → (∀ cr ∈ S₂, cr.2 ≤ r) →
        choose_compressor cands opts = LeafCompressor.Extend c)
    ∧ (∀ opts2 : WriteOptionsM α, opts2.min_gain = none →
        choose_compressor cands opts2 = LeafCompressor.Basic opts2.default_compression) := by
  refine ⟨?_, ?_, ?_⟩
  · intro h
    simp only [choose_compressor, hm]
    exact choose_loop_no_winner _ cands _ _ h
  · intro S₁ S₂ c r hfil hgr h1 h2
    simp only [choose_compressor, hm]
    exact choose_loop_winner _ cands S₁ S₂ c r _ _ hfil hgr h1 h2
  · intro opts2 h2
    simp only [choose_compressor, h2]

/-- C4 counterexample: the claim's `>= min_ratio` rule and the code differ
at equality. For the column `[7, 7]`, RLE's estimate is exactly
`average_run_length = 2`; with `min_ratio = 2` (and Dict forbidden) the
code falls back to the default general codec because the loop demands a
STRICTLY greater estimate, while the claim's rule would select RLE. -/
theorem C4_counterexample :
    choose_compressor_integer (gen_stats 4 [7, 7] none) 1
        ⟨CommonCompression.None, some 2, [Compression.Dict]⟩
      = LeafCompressor.Basic CommonCompression.None
    ∧ claimSelect [(Compression.RLE, (gen_stats 4 [7, 7] none).average_run_length),
        (Compression.Dict, 1)] ⟨CommonCompression.None, some 2, [Compression.Dict]⟩
      = LeafCompressor.Extend Compression.RLE
    ∧ (gen_stats 4 [7, 7] none).average_run_length = 2 := by
  have hrc : (genStatsRun [7, 7] none).run_count = 1 := by decide
  have havg : (gen_stats 4 [7, 7] none).average_run_length = 2 := by
    show (([7, 7].length : ℚ)) / ((genStatsRun [7, 7] none).run_count : ℚ) = 2
    rw [hrc]
    norm_num
  refine ⟨?_, ?_, havg⟩
  · rw [choose_compressor_integer, havg]
    norm_num [choose_compressor, choose_compressor_loop]
  · rw [havg]
    norm_num [claimSelect, List.filter]

/-- C4 witness: the amended selection rule applied to concrete candidate
lists - a strict winner is selected, and without a `min_ratio` the default
is chosen. -/
theorem C4_witness :
    choose_compressor [(Compression.RLE, (3 : ℚ)), (Compression.Dict, 1)]
        ⟨CommonCompression.LZ4, some 2, []⟩ = LeafCompressor.Extend Compression.RLE
    ∧ choose_compressor [(Compression.RLE, (3 : ℚ)), (Compression.Dict, 1)]
        ⟨CommonCompression.LZ4, none, []⟩ = LeafCompressor.Basic CommonCompression.LZ4 := by
  have h := C4_codec_selection [(Compression.RLE, (3 : ℚ)), (Compression.Dict, 1)]
    ⟨CommonCompression.LZ4, some 2, []⟩ 2 rfl
  exact ⟨h.2.1 [] [(Compression.Dict, 1)] Compression.RLE 3 (by decide) (by norm_num)
      (by simp) (by decide),
    h.2.2 ⟨CommonCompression.LZ4, none, []⟩ rfl⟩

/-! ## C8: the Delta estimate on wide integers -/

/-- C8 counterexample: for the 128-bit integer type
(`std::mem::size_of::<T>() = 16`, so `!= 32` holds), sorted stats with
more than one tuple give Delta the estimate `f64::MAX` - and the selection
loop then picks Delta over any attainable `min_ratio`, so 128-bit columns
are NOT refused. -/
theorem C8_counterexample :
    Delta.gain 16 (gen_stats 16 [1, 2] none) = f64Max
    ∧ choose_compressor [(CompressionFull.Delta, Delta.gain 16 (gen_stats 16 [1, 2] none))]
        ⟨CommonCompression.None, some 10, []⟩
      = LeafCompressor.Extend CompressionFull.Delta := by
  have hgain : Delta.gain 16 (gen_stats 16 [1, 2] none) = f64Max := by
    have hs : (gen_stats 16 [1, 2] none).is_sorted = true := by decide
    have ht : (gen_stats 16 [1, 2] none).tuple_count > 1 := by decide
    simp [Delta.gain, hs, ht]
  refine ⟨hgain, ?_⟩
  rw [hgain]
  norm_num [choose_compressor, choose_compressor_loop, f64Max]

/-- C8 (amended): `Delta::compress_ratio` refuses selection only for the
256-bit integer type (`size_of = 32`): there it returns `0.0`, which the
selection loop never chooses over a `min_ratio`; for the 128-bit type
(`size_of = 16`) with sorted stats of more than one tuple it returns
`f64::MAX` and can be selected. -/
theorem C8_delta_gain :
    (∀ stats : IntegerStats, Delta.gain 32 stats = 0)
    ∧ (∀ (stats : IntegerStats) (opts : WriteOptionsM CompressionFull),
        choose_compressor [(CompressionFull.Delta, Delta.gain 32 stats)] opts
          = LeafCompressor.Basic opts.default_compression)
    ∧ (∀ stats : IntegerStats, stats.is_sorted = true → stats.tuple_count > 1 →
        Delta.gain 16 stats = f64Max) := by
  have hzero : ∀ stats : IntegerStats, Delta.gain 32 stats = 0 := by
    intro stats
    simp [Delta.gain]
  refine ⟨hzero, ?_, ?_⟩
  · intro stats opts
    rcases hmg : opts.min_gain with _ | m
    · simp only [choose_compressor, hmg]
    · simp only [choose_compressor, hmg, choose_compressor_loop, hzero stats]
      split_ifs with h1 h2
      · rfl
      · exact absurd h2 (not_lt.mpr (by positivity))
      · rfl
  · intro stats hs ht
    simp [Delta.gain, hs, ht]

/-- C8 witness: the amended clauses applied to concrete stats - the
256-bit estimate is 0 and is never selected; the 128-bit estimate on a
sorted two-value column is `f64::MAX`. -/
theorem C8_witness :
    Delta.gain 32 (gen_stats 32 [1, 2] none) = 0
    ∧ choose_compressor [(CompressionFull.Delta, Delta.gain 32 (gen_stats 32 [1, 2] none))]
        ⟨CommonCompression.None, some 1, []⟩ = LeafCompressor.Basic CommonCompression.None
    ∧ Delta.gain 16 (gen_stats 16 [1, 2] none) = f64Max :=
  ⟨C8_delta_gain.1 _, C8_delta_gain.2.1 _ _,
   C8_delta_gain.2.2 _ (by decide) (by decide)⟩

end Strawboat

namespace Strawboat

/-! ## C5: the page value-payload header -/

theorem patchBytes_at (x y z p : List Nat) (hy : y.length = p.length) :
    patchBytes (x ++ (y ++ z)) x.length p = x ++ (p ++ z) := by
  have htake : (x ++ (y ++ z)).take x.length = x := List.take_left' rfl
  have hdrop : (x ++ (y ++ z)).drop (x.length + p.length) = z := by
    rw [← hy, ← List.length_append x y, ← List.append_assoc]
    exact List.drop_left' rfl
  rw [patchBytes, htake, hdrop, List.append_assoc]

/-- The placeholder-then-patch emission produces exactly the header layout:
codec byte, compressed size, uncompressed size (both `u32` little-endian),
then the payload. -/
theorem write_sized_eq (buf : List Nat) (codec : Nat) (payload : List Nat)
    (a b : Nat) :
    write_sized buf codec payload a b
      = buf ++ ([codec] ++ (u32le a ++ (u32le b ++ payload))) := by
  have hrep : List.replicate 8 (0 : Nat) = List.replicate 4 0 ++ List.replicate 4 0 := by
    decide
  have e1 : buf ++ ([codec] ++ (List.replicate 8 0 ++ payload))
      = (buf ++ [codec]) ++ (List.replicate 4 0 ++ (List.replicate 4 0 ++ payload)) := by
    rw [hrep]
    simp [List.append_assoc]
  have hlen1 : (buf ++ [codec]).length = buf.length + 1 := by simp
  have h1 : patchBytes (buf ++ ([codec] ++ (List.replicate 8 0 ++ payload)))
      (buf.length + 1) (u32le a)
      = (buf ++ [codec]) ++ (u32le a ++ (List.replicate 4 0 ++ payload)) := by
    rw [e1, ← hlen1]
    exact patchBytes_at _ _ _ _ (by simp [u32le_length])
  have e2 : (buf ++ [codec]) ++ (u32le a ++ (List.replicate 4 0 ++ payload))
      = ((buf ++ [codec]) ++ u32le a) ++ (List.replicate 4 0 ++ payload) := by
    simp [List.append_assoc]
  have hlen2 : ((buf ++ [codec]) ++ u32le a).length = buf.length + 5 := by
    simp [u32le_length]
  have h2 : patchBytes ((buf ++ [codec]) ++ (u32le a ++ (List.replicate 4 0 ++ payload)))
      (buf.length + 5) (u32le b)
      = ((buf ++ [codec]) ++ u32le a) ++ (u32le b ++ payload) := by
    rw [e2, ← hlen2]
    exact patchBytes_at _ _ _ _ (by simp [u32le_length])
  rw [write_sized, h1, h2]
  simp [List.append_assoc]

/-- The modelled `CommonCompression::compress` returns the byte count it
appended. -/
theorem CommonCompression.compress_fst (ext : ExtCompress) (c : CommonCompression)
    (input : List Nat) :
    (CommonCompression.compress ext c input).1
      = (CommonCompression.compress ext c input).2.length := by
  cases c <;> rfl

theorem valuesBytes_length (w : Nat) (buffer : List Int) :
    (valuesBytes w buffer).length = buffer.length * w := by
  rw [valuesBytes, List.length_flatten, List.map_map]
  rw [sum_map_all_eq _ _ w (fun a _ => by simp [Function.comp, leBytes_length])]

/-- C5 (amended): every leaf writer emits the value-payload header as the
1-byte codec tag followed by `compressed_size : u32 le` and
`uncompressed_size : u32 le` and then the payload. The primitive writers
store the byte length of the value buffer (= what decompression must
reproduce) in `uncompressed_size`; the boolean writer `encode_bitmap`
stores the page's VALUE COUNT there instead (its reader ignores the field
and derives `(length + 7) / 8` from the value count). -/
theorem C5_page_headers :
    (∀ (w : Nat) (ext : ExtCompressRs) (c : CompressionRs) (buffer : List Int)
        (out : List Nat), ∃ payload : List Nat,
      write_buffer w ext c buffer out
        = out ++ ([CompressionRs.toU8 c]
            ++ (u32le payload.length ++ (u32le (buffer.length * w) ++ payload)))
      ∧ (c = CompressionRs.None → payload = valuesBytes w buffer))
    ∧ (∀ (w : Nat) (ext : ExtCompress) (dict_gain : ℚ) (dict_payload : List Nat)
        (values : List Int) (validity : Option (List Bool))
        (opts : WriteOptionsM Compression) (buf : List Nat),
        ∃ (codec : Nat) (payload : List Nat),
      compress_native w ext dict_gain dict_payload values validity opts buf
        = buf ++ ([codec]
            ++ (u32le payload.length ++ (u32le (values.length * w) ++ payload))))
    ∧ (∀ (ext : ExtCompress) (one_value_gain rle_gain : ℚ)
        (encoder_payload : CompressionFull → List Nat) (bits : List Bool)
        (opts : WriteOptionsM CompressionFull) (buf : List Nat),
        ∃ (codec : Nat) (payload : List Nat),
      encode_bitmap ext one_value_gain rle_gain encoder_payload bits opts buf
        = buf ++ ([codec]
            ++ (u32le payload.length ++ (u32le bits.length ++ payload)))) := by
  refine ⟨?_, ?_, ?_⟩
  · intro w ext c buffer out
    cases c with
    | None =>
      refine ⟨valuesBytes w buffer, ?_, fun _ => rfl⟩
      rw [write_buffer]
      rw [valuesBytes_length]
    | LZ4 =>
      exact ⟨ext CompressionRs.LZ4 (valuesBytes w buffer),
        by simp only [write_buffer]; rw [valuesBytes_length], fun h => by simp at h⟩
    | ZSTD =>
      exact ⟨ext CompressionRs.ZSTD (valuesBytes w buffer),
        by simp only [write_buffer]; rw [valuesBytes_length], fun h => by simp at h⟩
    | SNAPPY =>
      exact ⟨ext CompressionRs.SNAPPY (valuesBytes w buffer),
        by simp only [write_buffer]; rw [valuesBytes_length], fun h => by simp at h⟩
  · intro w ext dict_gain dict_payload values validity opts buf
    cases hc : choose_compressor_integer (gen_stats w values validity) dict_gain opts with
    | Basic c =>
      refine ⟨(CommonCompression.to_compression c).toU8,
        (CommonCompression.compress ext c (valuesBytes w values)).2, ?_⟩
      rw [compress_native]
      simp only [hc]
      rw [CommonCompression.compress_fst]
      exact write_sized_eq _ _ _ _ _
    | Extend c =>
      refine ⟨Compression.toU8 c,
        (match c with
          | Compression.RLE => RLE.compress_native w (values.map (toPattern w)) validity
          | _ => dict_payload), ?_⟩
      rw [compress_native]
      simp only [hc]
      cases c <;> exact write_sized_eq _ _ _ _ _
  · intro ext one_value_gain rle_gain encoder_payload bits opts buf
    cases hc : choose_compressor_boolean one_value_gain rle_gain opts with
    | Basic c =>
      refine ⟨(CommonCompression.toFull c).toU8,
        (CommonCompression.compress ext c (boolsToBytes bits)).2, ?_⟩
      rw [encode_bitmap]
      simp only [hc]
      rw [CommonCompression.compress_fst]
      exact write_sized_eq _ _ _ _ _
    | Extend c =>
      refine ⟨c.toU8, encoder_payload c, ?_⟩
      rw [encode_bitmap]
      simp only [hc]
      exact write_sized_eq _ _ _ _ _

/-- C5 counterexample: for the two-value boolean page `[true, false]`
(default codec `None`, no minimum estimate), `encode_bitmap` emits
`uncompressed_size = 2` (the value count, bytes 5-8 of the page below)
while the value buffer after decompression is the single bitmap byte
`[1]` - so the field is NOT the post-decompression byte length. -/
theorem C5_counterexample :
    encode_bitmap (fun _ l => l) 0 0 (fun _ => []) [true, false]
        ⟨CommonCompression.None, none, []⟩ []
      = [0, 1, 0, 0, 0, 2, 0, 0, 0, 1]
    ∧ (boolsToBytes [true, false]).length = 1
    ∧ (2 : Nat) ≠ 1 := by
  refine ⟨by decide, by decide, by decide⟩

/-- C5 witness: the header layout applied to a concrete one-value `u8`
buffer for each of the three writers. -/
theorem C5_witness :
    (∃ payload : List Nat,
      write_buffer 1 (fun _ l => l) CompressionRs.None [7] []
        = [] ++ ([CompressionRs.toU8 CompressionRs.None]
            ++ (u32le payload.length ++ (u32le ([7].length * 1) ++ payload)))
      ∧ (CompressionRs.None = CompressionRs.None → payload = valuesBytes 1 [7]))
    ∧ (∃ (codec : Nat) (payload : List Nat),
      compress_native 1 (fun _ l => l) 0 [] [7] none
          ⟨CommonCompression.None, none, []⟩ []
        = [] ++ ([codec] ++ (u32le payload.length ++ (u32le ([7].length * 1) ++ payload))))
    ∧ (∃ (codec : Nat) (payload : List Nat),
      encode_bitmap (fun _ l => l) 0 0 (fun _ => []) [true]
          ⟨CommonCompression.None, none, []⟩ []
        = [] ++ ([codec] ++ (u32le payload.length ++ (u32le [true].length ++ payload)))) :=
  ⟨C5_page_headers.1 1 (fun _ l => l) CompressionRs.None [7] [],
   C5_page_headers.2.1 1 (fun _ l => l) 0 [] [7] none ⟨CommonCompression.None, none, []⟩ [],
   C5_page_headers.2.2 (fun _ l => l) 0 0 (fun _ => []) [true]
     ⟨CommonCompression.None, none, []⟩ []⟩

end Strawboat

namespace Strawboat

/-! ## C1: the write/read round trip of a simple primitive column -/

/-- C1: the round trip `decode(encode(A, opts)) == A` fails on the
write/read pair present in the tree. `write` (`src/write/serialize.rs`
lines 21-34, via `write_simple` lines 37-98) prefixes every simple page
with a twelve-byte `(length, rep_levels_len, def_levels_len)` validity
header - also for a non-nullable column - while `read_primitive`
(`src/read/array/primitive.rs` lines 185-215) consumes no such header
for a non-nullable column and hands the stream straight to
`batch_read_buffer` (`src/read/read_basic.rs` lines 176-207). On the
non-nullable six-value `i32` column `[1, 2, 3, 4, 5, 6]` written
uncompressed, the reader takes the header's first byte (`6`, the low
byte of the length) for the codec tag and errors with `OutOfSpec`; the
payload from byte twelve on - exactly what the writer produced beyond
the header the reader never expects - decodes to the column, locating
the divergence at the header. -/
theorem C1_write_read_mismatch :
    (read_primitive_required 4 (fun _ l => l) [6]
        (write_simple_primitive 4 (fun _ l => l) CompressionRs.None
          [1, 2, 3, 4, 5, 6] []) = none)
    ∧ (read_primitive_required 4 (fun _ l => l) [6]
        ((write_simple_primitive 4 (fun _ l => l) CompressionRs.None
          [1, 2, 3, 4, 5, 6] []).drop 12) = some [1, 2, 3, 4, 5, 6]) := by
  decide

end Strawboat

namespace Strawboat

/-! ## C2: byte-slice offset continuity across pages -/

/-- C2: decoding a raw-mode byte-slice page into a non-empty prior offsets
buffer violates offset continuity. The `// fix offset` loop of
`read_binary_buffer` (`src/read/array/binary.rs` lines 296-302) rewrites
slots `offsets.len() - length - 1 ..< offsets.len() - 1` to
`start_offset + offsets[i + 1]` but never rewrites the final slot, which
keeps the page's stale intrinsic last offset. Concretely: after a prior
page with offsets `[0, 2]` and values `"ab"`, the raw (`None`-codec)
page holding the single value `"c"` - intrinsic offsets `[0, 1]`, value
bytes `[99]` - decodes to the offsets buffer `[0, 2, 3, 1]`. The
appended tail is `[3, 1]`: the final offset `1` is smaller than the
prior last offset `2` (the claim requires every appended offset to be
`>= 2`), and the tail is not the single rebased offset `[3]` the claim's
difference condition requires for a one-value page of length one. -/
theorem C2_raw_mode_offset_fix_stale :
    (read_binary_buffer 4 (fun _ l => l)
        ([0] ++ ([0] ++ (u32le 8 ++ (u32le 8 ++ ([0, 0, 0, 0] ++ [1, 0, 0, 0]))))
          ++ ([0] ++ (u32le 1 ++ (u32le 1 ++ [99])))) 1 [0, 2] [97, 98]
      = some ([0, 2, 3, 1], [97, 98, 99], []))
    ∧ ¬ (∀ o ∈ List.drop 2 [0, 2, 3, 1], 2 ≤ o)
    ∧ List.drop 2 [0, 2, 3, 1] ≠ [3] := by
  decide

end Strawboat
